import Mathlib

/-!
Verification of the editing core of `src/components/ModelPreview.tsx`
(Dr.SEM structural-model canvas): graph data model, bounded deduplicating
undo/redo history engine, link-duplicate policy, cascading node deletion,
and the auto-layout algorithm.

The embedding is shallow: JavaScript numbers that ever carry canvas
coordinates are modelled as rationals (every division the layout performs
is exact, so float rounding never occurs on the values involved); the
React component state that the verified properties touch (`nodes`,
`links`, `history`, `historyIndex`, `isUndoRedoAction`) is an explicit
record, and each user action is the handler followed by one pass of the
history-recording effect (the component is single-threaded and the effect
is a no-op on settled states, so further re-runs change nothing).
Transient selection state is omitted: no verified property mentions it.
-/

/-- Node type: `'latent' | 'observed'` (src/types, used throughout ModelPreview). -/
inductive NodeType where
  | latent
  | observed
deriving DecidableEq, Repr

/-- Link type: `'directed' | 'covariance'`. -/
inductive LinkType where
  | directed
  | covariance
deriving DecidableEq, Repr

/-- A canvas node: `{ id, label, type, x, y }`. -/
structure Node where
  id : String
  label : String
  type : NodeType
  x : ℚ
  y : ℚ
deriving DecidableEq, Repr

/-- A link: `{ source, target, type }` (source/target are node ids). -/
structure Link where
  source : String
  target : String
  type : LinkType
deriving DecidableEq, Repr

/-- A history snapshot: the deep-copied `(nodes, links)` pair. Deep copies
are modelled by value semantics. -/
abbrev Snap := List Node × List Link

/-- `const HISTORY_LIMIT = 20` (ModelPreview.tsx line 24). -/
def historyLimit : Nat := 20

/-- `history[i]` for an integer index: `undefined` (`none`) when out of range. -/
def getSnap (h : List Snap) (i : Int) : Option Snap :=
  if 0 ≤ i then h.get? i.toNat else none

/-- `saveToHistory` (lines 54-66): truncate to `slice(0, historyIndex+1)`,
shift the oldest entry off when at capacity, append the new entry, and clamp
the index with `Math.min(prev + 1, HISTORY_LIMIT - 1)`.  The functional
updater and the captured `historyIndex` read the same settled render, so
both are the pre-call values.  `historyIndex ≥ -1` in every reachable
state, so `slice`'s negative-end case never arises and `take` matches. -/
def saveToHistory (h : List Snap) (idx : Int) (entry : Snap) :
    List Snap × Int :=
  let newHistory := h.take (idx + 1).toNat
  let newHistory := if historyLimit ≤ newHistory.length
    then newHistory.drop 1 else newHistory
  (newHistory ++ [entry], min (idx + 1) ((historyLimit : Int) - 1))

/-- The component state the verified properties range over. -/
structure EditorState where
  nodes : List Node
  links : List Link
  history : List Snap
  historyIndex : Int
  isUndoRedoAction : Bool
deriving DecidableEq, Repr

/-- Apply `saveToHistory` to the live `(nodes, links)`. -/
def doSaveToHistory (st : EditorState) : EditorState :=
  let p := saveToHistory st.history st.historyIndex (st.nodes, st.links)
  { st with history := p.1, historyIndex := p.2 }

/-- The history-recording effect (lines 99-110): unless the change came
from undo/redo, record the state when the canvas is non-empty and differs
from `history[historyIndex]` (the `JSON.stringify` comparison is
structural equality here), and always reset the re-entrancy flag. -/
def historyEffect (st : EditorState) : EditorState :=
  let st1 :=
    if st.isUndoRedoAction = false then
      if st.nodes ≠ [] ∨ st.links ≠ [] then
        if getSnap st.history st.historyIndex = some (st.nodes, st.links)
          then st
          else doSaveToHistory st
      else st
    else st
  { st1 with isUndoRedoAction := false }

/-- A fresh (non-replay) edit: the new `(nodes, links)` are committed and
the effect runs once on the settled render. -/
def applyEdit (st : EditorState) (s : Snap) : EditorState :=
  historyEffect { st with nodes := s.1, links := s.2 }

/-- A sequence of fresh edits. -/
def applyEdits (st : EditorState) (ss : List Snap) : EditorState :=
  ss.foldl applyEdit st

/-- `undo` (lines 68-79): guarded by `historyIndex > 0`; reads
`history[historyIndex - 1]`, which the source dereferences without a
check, so an out-of-range read is a failure (`none`). -/
def undo (st : EditorState) : Option EditorState :=
  if 0 < st.historyIndex then
    (getSnap st.history (st.historyIndex - 1)).map fun p =>
      historyEffect { st with
        isUndoRedoAction := true
        nodes := p.1
        links := p.2
        historyIndex := st.historyIndex - 1 }
  else some st

/-- `redo` (lines 81-91): guarded by `historyIndex < history.length - 1`. -/
def redo (st : EditorState) : Option EditorState :=
  if st.historyIndex < (st.history.length : Int) - 1 then
    (getSnap st.history (st.historyIndex + 1)).map fun p =>
      historyEffect { st with
        isUndoRedoAction := true
        nodes := p.1
        links := p.2
        historyIndex := st.historyIndex + 1 }
  else some st

/-- `n` consecutive undos. -/
def undoN : Nat → EditorState → Option EditorState
  | 0, st => some st
  | n + 1, st => (undo st).bind (undoN n)

/-- `n` consecutive redos. -/
def redoN : Nat → EditorState → Option EditorState
  | 0, st => some st
  | n + 1, st => (redo st).bind (redoN n)

/-- A saved model (`SavedModel`, timestamp elided: never read by `loadModel`). -/
structure SavedModel where
  id : String
  name : String
  nodes : List Node
  links : List Link

/-- `loadModel` (lines 145-159), after the user confirms: replace the
canvas and reset history to a single-entry stack at index 0; the effect
then runs on the settled render. -/
def loadModel (st : EditorState) (m : SavedModel) : EditorState :=
  historyEffect { st with
    nodes := m.nodes
    links := m.links
    history := [(m.nodes, m.links)]
    historyIndex := 0 }

/-- `createNewModel` (lines 171-178), after the user confirms. -/
def createNewModel (st : EditorState) : EditorState :=
  historyEffect { st with
    nodes := []
    links := []
    history := [([], [])]
    historyIndex := 0 }

/-- An editor freshly seeded with one settled snapshot (the state after
the initial-history effect of lines 93-97 has recorded a first entry). -/
def seeded (s : Snap) : EditorState :=
  ⟨s.1, s.2, [s], 0, false⟩

/-- The completed two-click link gesture in link mode
(`handleNodeClick`, lines 315-323): reject when a link with the same
ordered `(source, target)` exists, or — for covariance — when the reverse
ordering exists; otherwise append.  The surrounding gesture guarantees
`source ≠ target` (clicking the pending source again cancels instead). -/
def addLink (links : List Link) (source target : String) (ty : LinkType) :
    List Link :=
  let alreadyExists := links.any fun l =>
    (l.source = source ∧ l.target = target) ∨
      (ty = LinkType.covariance ∧ l.source = target ∧ l.target = source)
  if alreadyExists then links
  else links ++ [⟨source, target, ty⟩]

/-- A sequence of link gestures. -/
def addLinks (gestures : List (String × String × LinkType))
    (links : List Link) : List Link :=
  gestures.foldl (fun acc g => addLink acc g.1 g.2.1 g.2.2) links

/-- `handleDeleteSelected`, node branch (lines 350-356), after the user
confirms: drop the node and every link incident to it. -/
def removeNode (nodes : List Node) (links : List Link) (i : String) :
    List Node × List Link :=
  (nodes.filter fun n => n.id ≠ i,
   links.filter fun l => l.source ≠ i ∧ l.target ≠ i)

/-! ## Auto-layout (`autoLayout`, lines 181-256) -/

/-- `canvasPadding = 100`. -/
def canvasPadding : ℚ := 100

/-- `layerGap = 350` (horizontal gap between latent layers). -/
def layerGap : ℚ := 350

/-- `nodeGap = 180` (vertical gap between latents). -/
def nodeGap : ℚ := 180

/-- `observedGap = 100` (horizontal gap between observed variables). -/
def observedGap : ℚ := 100

/-- Assign a position to the node with the given id (object mutation in
the source; ids are unique in every graph snapshot, per the data model). -/
def setPos (ns : List Node) (i : String) (x y : ℚ) : List Node :=
  ns.map fun n => if n.id = i then { n with x := x, y := y } else n

/-- `nodes.filter(n => n.type === 'latent')`. -/
def latentsOf (nodes : List Node) : List Node :=
  nodes.filter fun n => n.type = NodeType.latent

/-- `nodes.filter(n => n.type === 'observed')`. -/
def observedOf (nodes : List Node) : List Node :=
  nodes.filter fun n => n.type = NodeType.observed

/-- Exogenous latents: no incoming directed link whose source is another
latent (lines 192-194). -/
def exogenousOf (nodes : List Node) (links : List Link) : List Node :=
  (latentsOf nodes).filter fun l =>
    ¬ links.any fun link =>
      link.target = l.id ∧ link.type = LinkType.directed ∧
        (latentsOf nodes).any fun src => src.id = link.source

/-- Endogenous latents: the latents not found among the exogenous ones
(line 197). -/
def endogenousOf (nodes : List Node) (links : List Link) : List Node :=
  (latentsOf nodes).filter fun l =>
    ¬ (exogenousOf nodes links).any fun ex => ex.id = l.id

/-- Start of the endogenous column (lines 215-220): centred against the
exogenous column when shorter. -/
def endoStartY (nodes : List Node) (links : List Link) : ℚ :=
  let totalExoHeight :=
    ((exogenousOf nodes links).length : ℚ) * nodeGap
  let totalEndoHeight :=
    ((endogenousOf nodes links).length : ℚ) * nodeGap
  if (endogenousOf nodes links).length < (exogenousOf nodes links).length
    then canvasPadding + (totalExoHeight - totalEndoHeight) / 2
    else canvasPadding

/-- Keep the first occurrence of each node id, skipping ids already seen
(the source's `filter((v, i, a) => a.findIndex(t => t.id === v.id) === i)`). -/
def dedupByIdAux : List Node → List String → List Node
  | [], _ => []
  | n :: rest, seen =>
    if n.id ∈ seen then dedupByIdAux rest seen
    else n :: dedupByIdAux rest (n.id :: seen)

/-- Keep the first occurrence of each node id. -/
def dedupById (xs : List Node) : List Node :=
  dedupByIdAux xs []

/-- Observed nodes connected to the given latent by a link with the latent
at either endpoint, mapped to the observed node at the other endpoint and
deduplicated keeping the first occurrence of each id (lines 231-238; the
source's map-to-`observed.find` never yields `undefined` because the
filter already checked the other endpoint is observed, and its
`findIndex`-based filter keeps first occurrences). -/
def connectedObsOf (links : List Link) (observed : List Node)
    (latentId : String) : List Node :=
  dedupById ((links.filter fun l =>
      (l.source = latentId ∧ observed.any fun o => o.id = l.target) ∨
        (l.target = latentId ∧ observed.any fun o => o.id = l.source)
    ).filterMap fun l =>
      observed.find? fun o =>
        o.id = (if l.source = latentId then l.target else l.source))

/-- Place the given nodes one per row in a column at horizontal offset
`x`, starting at `startY` and stepping by `nodeGap` — the source's
`forEach` loops of lines 207-211 (running `currentY`) and 222-225
(`endoStartY + i * nodeGap`). -/
def placeColumn (x : ℚ) : List Node → ℚ → List Node → List Node
  | [], _, acc => acc
  | n :: rest, currentY, acc =>
    placeColumn x rest (currentY + nodeGap) (setPos acc n.id x currentY)

/-- Place the given observed nodes in a row at vertical offset `y`,
starting at `startX` and stepping by `observedGap` — the source's
`connectedObs.forEach` of lines 244-250 (`startX + i * observedGap`). -/
def placeRow (y : ℚ) : List Node → ℚ → List Node → List Node
  | [], _, acc => acc
  | n :: rest, currentX, acc =>
    placeRow y rest (currentX + observedGap) (setPos acc n.id currentX y)

/-- Place the observed nodes connected to one latent (lines 228-252): read
the latent's current position from the working array, centre the row of
connected observed nodes under it, 120 below. -/
def placeObsOf (nodes : List Node) (links : List Link) (acc : List Node)
    (latent : Node) : List Node :=
  match acc.find? fun n => n.id = latent.id with
  | some lat =>
    let cObs := connectedObsOf links (observedOf nodes) latent.id
    if 0 < cObs.length then
      let totalWidth := ((cObs.length : ℚ) - 1) * observedGap
      let startX := lat.x - totalWidth / 2
      placeRow (lat.y + 120) cObs startX acc
    else acc
  | none => acc

/-- `autoLayout` (lines 181-256) as a function `(nodes, links) → nodes`:
the source deep-clones the array, classifies latents, positions exogenous
latents in the left column, endogenous latents in the right column, then
for each latent rows its connected observed nodes centred under the
latent's just-assigned position (read back from the working array; the
`find?` in `placeObsOf` stands for the source's direct mutation of the
shared node object and never misses, since position updates preserve
ids). -/
def autoLayout (nodes : List Node) (links : List Link) : List Node :=
  if (latentsOf nodes).isEmpty ∧ (observedOf nodes).isEmpty then nodes
  else
    let ns1 := placeColumn canvasPadding (exogenousOf nodes links)
      canvasPadding nodes
    let ns2 := placeColumn (canvasPadding + layerGap)
      (endogenousOf nodes links) (endoStartY nodes links) ns1
    (latentsOf nodes).foldl (placeObsOf nodes links) ns2

/-! ## Link-duplicate policy (C2) -/

/-- Two links carry the same pair in the sense of claim C2: equal ordered
`(source, target)`, or — when either link is a covariance link — the same
pair in either ordering. -/
def samePairSym (l1 l2 : Link) : Prop :=
  (l1.source = l2.source ∧ l1.target = l2.target) ∨
    ((l1.type = LinkType.covariance ∨ l2.type = LinkType.covariance) ∧
      l1.source = l2.target ∧ l1.target = l2.source)

/-- The link list contains no two entries with the same pair in the sense
of claim C2. -/
def NoSymPairDup (links : List Link) : Prop :=
  links.Pairwise fun a b => ¬ samePairSym a b

/-- Two links carry the same pair under the policy the code enforces:
equal ordered `(source, target)`, or — when both are covariance links —
the same pair in either ordering. -/
def samePairCov (l1 l2 : Link) : Prop :=
  (l1.source = l2.source ∧ l1.target = l2.target) ∨
    (l1.type = LinkType.covariance ∧ l2.type = LinkType.covariance ∧
      l1.source = l2.target ∧ l1.target = l2.source)

/-- No-duplicate invariant actually maintained by `addLink`. -/
def LinksDupFree (links : List Link) : Prop :=
  links.Pairwise fun a b => ¬ samePairCov a b

/-- The attempted link counts as a duplicate under the code's rejection
policy. -/
def duplicateOf (links : List Link) (source target : String)
    (ty : LinkType) : Prop :=
  ∃ l ∈ links, (l.source = source ∧ l.target = target) ∨
    (ty = LinkType.covariance ∧ l.source = target ∧ l.target = source)

instance (l1 l2 : Link) : Decidable (samePairSym l1 l2) := by
  unfold samePairSym
  infer_instance

instance (l1 l2 : Link) : Decidable (samePairCov l1 l2) := by
  unfold samePairCov
  infer_instance

instance (links : List Link) : Decidable (NoSymPairDup links) := by
  unfold NoSymPairDup
  exact List.instDecidablePairwise _

instance (links : List Link) : Decidable (LinksDupFree links) := by
  unfold LinksDupFree
  exact List.instDecidablePairwise _

instance (links : List Link) (s t : String) (ty : LinkType) :
    Decidable (duplicateOf links s t ty) := by
  unfold duplicateOf
  infer_instance

lemma addLink_any_iff (ls : List Link) (s t : String) (ty : LinkType) :
    (ls.any fun l => (l.source = s ∧ l.target = t) ∨
        (ty = LinkType.covariance ∧ l.source = t ∧ l.target = s)) = true
      ↔ duplicateOf ls s t ty := by
  simp only [List.any_eq_true, decide_eq_true_eq, duplicateOf]

lemma addLink_of_duplicate {ls : List Link} {s t : String} {ty : LinkType}
    (h : duplicateOf ls s t ty) : addLink ls s t ty = ls := by
  unfold addLink
  simp only [(addLink_any_iff ls s t ty).mpr h, if_true]

lemma addLink_not_duplicate {ls : List Link} {s t : String} {ty : LinkType}
    (h : ¬ duplicateOf ls s t ty) :
    addLink ls s t ty = ls ++ [⟨s, t, ty⟩] := by
  unfold addLink
  have hx : (ls.any fun l => (l.source = s ∧ l.target = t) ∨
      (ty = LinkType.covariance ∧ l.source = t ∧ l.target = s)) = false := by
    rw [← Bool.not_eq_true, addLink_any_iff]
    exact h
  simp only [hx, Bool.false_eq_true, if_false]

lemma addLink_dupFree {ls : List Link} {s t : String} {ty : LinkType}
    (h : LinksDupFree ls) : LinksDupFree (addLink ls s t ty) := by
  by_cases hd : duplicateOf ls s t ty
  · rw [addLink_of_duplicate hd]
    exact h
  · rw [addLink_not_duplicate hd]
    rw [LinksDupFree, List.pairwise_append]
    refine ⟨h, List.pairwise_singleton _ _, ?_⟩
    intro a ha b hb
    simp only [List.mem_singleton] at hb
    subst hb
    rw [duplicateOf] at hd
    push_neg at hd
    rcases hd a ha with ⟨h1, h2⟩
    rintro (⟨hs, ht⟩ | ⟨hc1, hc2, hs, ht⟩)
    · exact h1 hs ht
    · exact (h2 hc2) hs ht

lemma addLinks_dupFree {ls : List Link}
    (gestures : List (String × String × LinkType))
    (h : LinksDupFree ls) : LinksDupFree (addLinks gestures ls) := by
  induction gestures generalizing ls with
  | nil => exact h
  | cons g rest ih => exact ih (addLink_dupFree h)

/-- The concrete three-node graph of spec section 8: two latents `a`, `b`
and one observed `c`, with directed links `a → b` and `a → c`. -/
def nodeA : Node := ⟨"a", "a", NodeType.latent, 0, 0⟩

/-- Latent node `b` of the section-8 graph. -/
def nodeB : Node := ⟨"b", "b", NodeType.latent, 0, 0⟩

/-- Observed node `c` of the section-8 graph. -/
def nodeC : Node := ⟨"c", "c", NodeType.observed, 0, 0⟩

/-- Links of the section-8 graph. -/
def exampleLinks : List Link :=
  [⟨"a", "b", LinkType.directed⟩, ⟨"a", "c", LinkType.directed⟩]

/-- C2, counterexample: a covariance link `a ↔ b` followed by a directed
link `b → a` is accepted by the code, producing two entries whose pairs
coincide once the covariance entry is compared symmetrically — the
claimed invariant fails as stated. -/
theorem c2_counterexample :
    addLinks [("a", "b", LinkType.covariance), ("b", "a", LinkType.directed)] [] =
      [⟨"a", "b", LinkType.covariance⟩, ⟨"b", "a", LinkType.directed⟩] ∧
    ¬ NoSymPairDup
      [⟨"a", "b", LinkType.covariance⟩, ⟨"b", "a", LinkType.directed⟩] := by
  constructor
  · decide
  · intro h
    rcases h with _ | ⟨hab, _⟩
    exact hab _ (List.mem_singleton_self _) (Or.inr ⟨Or.inl rfl, rfl, rfl⟩)

/-- C2, amended: every sequence of completed link gestures leaves the
link list free of duplicates under the policy the code enforces — equal
ordered `(source, target)` pairs never repeat, and a covariance pair never
repeats in either ordering *against another covariance link* (a covariance
`a ↔ b` does not block a later directed `b → a`); a duplicate attempt
leaves the list unchanged, and adding `a → b` twice yields one link. -/
theorem c2_no_duplicate_links (ls : List Link)
    (gestures : List (String × String × LinkType))
    (s t : String) (ty : LinkType) (h : LinksDupFree ls) :
    LinksDupFree (addLink ls s t ty) ∧
    LinksDupFree (addLinks gestures []) ∧
    (duplicateOf ls s t ty → addLink ls s t ty = ls) ∧
    addLinks [("a", "b", LinkType.directed), ("a", "b", LinkType.directed)] [] =
      [⟨"a", "b", LinkType.directed⟩] := by
  refine ⟨addLink_dupFree h, addLinks_dupFree gestures List.Pairwise.nil,
    addLink_of_duplicate, ?_⟩
  decide

/-- Witness for `c2_no_duplicate_links` at a concrete input. -/
theorem c2_witness :
    LinksDupFree [⟨"a", "b", LinkType.directed⟩] ∧
    LinksDupFree
      (addLink [⟨"a", "b", LinkType.directed⟩] "b" "c" LinkType.covariance) :=
  ⟨by decide,
    (c2_no_duplicate_links [⟨"a", "b", LinkType.directed⟩] [] "b" "c"
      LinkType.covariance (by decide)).1⟩

/-- C4: deleting a node always leaves zero links referencing its id, for
any prior graph; on the section-8 graph, deleting `"a"` removes both links
and leaves nodes `[b, c]`. -/
theorem c4_removeNode_no_dangling (nodes : List Node) (links : List Link)
    (i : String) :
    ((removeNode nodes links i).2.filter fun l =>
      l.source = i ∨ l.target = i) = [] ∧
    removeNode [nodeA, nodeB, nodeC] exampleLinks "a" = ([nodeB, nodeC], []) := by
  constructor
  · rw [List.filter_eq_nil_iff]
    intro l hl
    rw [removeNode] at hl
    simp only [List.mem_filter, decide_eq_true_eq] at hl
    simp only [decide_eq_true_eq]
    rcases hl with ⟨_, hns, hnt⟩
    rintro (hs | ht)
    · exact hns hs
    · exact hnt ht
  · decide

/-- C6: on the section-8 graph, auto-layout puts `a` in the exogenous
(left) column, `b` in the endogenous column one layer gap to the right,
and `c` centred under `a`'s x-coordinate, 120 below `a`. -/
theorem c6_autoLayout_example :
    exogenousOf [nodeA, nodeB, nodeC] exampleLinks = [nodeA] ∧
    endogenousOf [nodeA, nodeB, nodeC] exampleLinks = [nodeB] ∧
    autoLayout [nodeA, nodeB, nodeC] exampleLinks =
      [{ nodeA with x := canvasPadding, y := canvasPadding },
       { nodeB with x := canvasPadding + layerGap, y := canvasPadding },
       { nodeC with x := canvasPadding, y := canvasPadding + 120 }] := by
  refine ⟨by decide, by decide, ?_⟩
  norm_num +decide [autoLayout, latentsOf, observedOf, exogenousOf,
    endogenousOf, endoStartY, connectedObsOf, dedupById, dedupByIdAux,
    setPos, placeColumn, placeRow, placeObsOf, nodeA, nodeB, nodeC,
    exampleLinks, canvasPadding, layerGap, nodeGap, observedGap]

/-! ## History-engine invariants -/

/-- States reachable by the history engine (`ReachInv`): either the initial empty
history with index `-1`, or an in-bounds index into a stack of at most
`HISTORY_LIMIT` snapshots. -/
def ReachInv (st : EditorState) : Prop :=
  (st.history = [] ∧ st.historyIndex = -1) ∨
    (0 ≤ st.historyIndex ∧ st.historyIndex < (st.history.length : Int) ∧
      st.history.length ≤ historyLimit)

/-- The index bound claim C10 states for non-empty stacks. -/
def InBounds (st : EditorState) : Prop :=
  st.history ≠ [] →
    0 ≤ st.historyIndex ∧ st.historyIndex ≤ (st.history.length : Int) - 1

/-- A settled editor state: in-bounds index, bounded stack, the snapshot
under the index equals the live `(nodes, links)`, and no replay pending. -/
def Good (st : EditorState) : Prop :=
  0 ≤ st.historyIndex ∧ st.historyIndex < (st.history.length : Int) ∧
    st.history.length ≤ historyLimit ∧
    getSnap st.history st.historyIndex = some (st.nodes, st.links) ∧
    st.isUndoRedoAction = false

instance (st : EditorState) : Decidable (ReachInv st) := by
  unfold ReachInv
  infer_instance

instance (st : EditorState) : Decidable (Good st) := by
  unfold Good
  infer_instance

lemma inv_of_good {st : EditorState} (hg : Good st) : ReachInv st :=
  Or.inr ⟨hg.1, hg.2.1, hg.2.2.1⟩

lemma inBounds_of_inv {st : EditorState} (h : ReachInv st) : InBounds st := by
  rcases h with ⟨he, _⟩ | ⟨h0, hlt, _⟩
  · intro hne
    exact absurd he hne
  · intro _
    omega

/-- Resetting an already-clear flag is the identity. -/
lemma flag_reset_eq {st : EditorState} (h : st.isUndoRedoAction = false) :
    { st with isUndoRedoAction := false } = st := by
  cases st
  simp_all

lemma historyEffect_settled {st : EditorState}
    (hflag : st.isUndoRedoAction = false)
    (hset : getSnap st.history st.historyIndex = some (st.nodes, st.links)) :
    historyEffect st = st := by
  unfold historyEffect
  by_cases hc : st.nodes ≠ [] ∨ st.links ≠ []
  · simp only [hflag, if_true, hc, if_pos, hset]
    exact flag_reset_eq hflag
  · simp only [hflag, if_true, hc, if_neg, if_false]
    exact flag_reset_eq hflag

lemma historyEffect_flagTrue {st : EditorState}
    (h : st.isUndoRedoAction = true) :
    historyEffect st = { st with isUndoRedoAction := false } := by
  unfold historyEffect
  simp [h]

lemma historyEffect_record {st : EditorState}
    (hflag : st.isUndoRedoAction = false)
    (hne : getSnap st.history st.historyIndex ≠ some (st.nodes, st.links))
    (hnt : st.nodes ≠ [] ∨ st.links ≠ []) :
    historyEffect st = doSaveToHistory st := by
  unfold historyEffect
  simp only [hflag, if_true, hnt, if_pos, hne, if_false, if_neg]
  exact flag_reset_eq (by simp [doSaveToHistory, hflag])

lemma applyEdit_eq_record {st : EditorState} {s : Snap}
    (hflag : st.isUndoRedoAction = false)
    (hne : getSnap st.history st.historyIndex ≠ some s)
    (hnt : s.1 ≠ [] ∨ s.2 ≠ []) :
    applyEdit st s =
      ⟨s.1, s.2, (saveToHistory st.history st.historyIndex s).1,
        (saveToHistory st.history st.historyIndex s).2, false⟩ := by
  unfold applyEdit
  have hf2 : ({ st with nodes := s.1, links := s.2 } : EditorState).isUndoRedoAction = false := hflag
  have hne2 : getSnap ({ st with nodes := s.1, links := s.2 } : EditorState).history
      ({ st with nodes := s.1, links := s.2 } : EditorState).historyIndex ≠
      some (({ st with nodes := s.1, links := s.2 } : EditorState).nodes,
        ({ st with nodes := s.1, links := s.2 } : EditorState).links) := hne
  have hnt2 : ({ st with nodes := s.1, links := s.2 } : EditorState).nodes ≠ [] ∨
      ({ st with nodes := s.1, links := s.2 } : EditorState).links ≠ [] := hnt
  rw [historyEffect_record hf2 hne2 hnt2]
  simp [doSaveToHistory, hflag]

lemma applyEdit_self {st : EditorState} (hg : Good st) :
    applyEdit st (st.nodes, st.links) = st := by
  unfold applyEdit
  have h1 : ({ st with nodes := st.nodes, links := st.links } : EditorState)
      = st := by
    cases st
    rfl
  rw [h1]
  exact historyEffect_settled hg.2.2.2.2 hg.2.2.2.1

lemma applyEdit_trivial {st : EditorState} {s : Snap}
    (hflag : st.isUndoRedoAction = false) (h1 : s.1 = []) (h2 : s.2 = []) :
    applyEdit st s = { st with nodes := s.1, links := s.2 } := by
  unfold applyEdit historyEffect
  simp only [hflag, h1, h2]
  simp

lemma getSnap_append_last (A : List Snap) (s : Snap) :
    getSnap (A ++ [s]) A.length = some s := by
  unfold getSnap
  rw [if_pos (by positivity)]
  rw [Int.toNat_natCast, List.get?_eq_getElem?,
    List.getElem?_append_right (le_refl _)]
  simp

lemma good_getSnap_ne {st : EditorState} (hg : Good st) {s : Snap}
    (hne : s ≠ (st.nodes, st.links)) :
    getSnap st.history st.historyIndex ≠ some s := by
  rw [hg.2.2.2.1]
  intro h
  exact hne (Option.some_injective _ h).symm

lemma saveToHistory_push {h : List Snap} {idx : Int} {entry : Snap}
    (h0 : 0 ≤ idx) (htop : idx + 1 = (h.length : Int))
    (hlen : h.length ≤ historyLimit - 1) :
    saveToHistory h idx entry = (h ++ [entry], idx + 1) := by
  unfold saveToHistory
  have ht : (idx + 1).toNat = h.length := by omega
  have hno : ¬ (historyLimit ≤ h.length) := by
    unfold historyLimit at *
    omega
  have hmin : min (idx + 1) ((historyLimit : Int) - 1) = idx + 1 := by
    unfold historyLimit at *
    omega
  simp only [ht, List.take_length, if_neg hno, hmin]

lemma saveToHistory_full {h : List Snap} {idx : Int} {entry : Snap}
    (htop : idx + 1 = (h.length : Int)) (hfull : h.length = historyLimit) :
    saveToHistory h idx entry = (h.drop 1 ++ [entry], idx) := by
  unfold saveToHistory
  have ht : (idx + 1).toNat = h.length := by omega
  have hyes : historyLimit ≤ h.length := le_of_eq hfull.symm
  have hmin : min (idx + 1) ((historyLimit : Int) - 1) = idx := by
    unfold historyLimit at *
    omega
  simp only [ht, List.take_length, if_pos hyes, hmin]

lemma saveToHistory_mid {h : List Snap} {idx : Int} {entry : Snap}
    (h0 : 0 ≤ idx) (hlt : idx < (h.length : Int))
    (hsmall : idx + 1 < (historyLimit : Int)) :
    saveToHistory h idx entry = (h.take (idx + 1).toNat ++ [entry], idx + 1) := by
  unfold saveToHistory
  have hlen1 : (h.take (idx + 1).toNat).length = (idx + 1).toNat := by
    rw [List.length_take]
    omega
  have hno : ¬ (historyLimit ≤ (h.take (idx + 1).toNat).length) := by
    rw [hlen1]
    omega
  have hmin : min (idx + 1) ((historyLimit : Int) - 1) = idx + 1 := by omega
  simp only [if_neg hno, hmin]

lemma getSnap_append_last2 (A : List Snap) (s : Snap) (i : Int)
    (h : i = (A.length : Int)) : getSnap (A ++ [s]) i = some s := by
  rw [h]
  exact getSnap_append_last A s

lemma good_applyEdit {st : EditorState} {s : Snap} (hg : Good st)
    (hnt : s.1 ≠ [] ∨ s.2 ≠ []) : Good (applyEdit st s) := by
  obtain ⟨h0, hlt, hle, hset, hflag⟩ := hg
  by_cases hcur : s = (st.nodes, st.links)
  · have hg : Good st := ⟨h0, hlt, hle, hset, hflag⟩
    have heq : applyEdit st s = st := by
      rw [hcur]
      exact applyEdit_self hg
    rw [heq]
    exact hg
  · have hne : getSnap st.history st.historyIndex ≠ some s :=
      good_getSnap_ne ⟨h0, hlt, hle, hset, hflag⟩ hcur
    have hrec := applyEdit_eq_record hflag hne hnt
    by_cases hsmall : st.historyIndex + 1 < (historyLimit : Int)
    · rw [saveToHistory_mid h0 hlt hsmall] at hrec
      rw [hrec]
      have hlen1 : (st.history.take (st.historyIndex + 1).toNat).length
          = (st.historyIndex + 1).toNat := by
        rw [List.length_take]
        omega
      refine ⟨?_, ?_, ?_, ?_, rfl⟩
      · show 0 ≤ st.historyIndex + 1
        omega
      · show st.historyIndex + 1 <
          ((st.history.take (st.historyIndex + 1).toNat ++ [s]).length : Int)
        rw [List.length_append, hlen1]
        simp only [List.length_cons, List.length_nil]
        omega
      · show (st.history.take (st.historyIndex + 1).toNat ++ [s]).length
          ≤ historyLimit
        rw [List.length_append, hlen1]
        simp only [List.length_cons, List.length_nil]
        omega
      · show getSnap (st.history.take (st.historyIndex + 1).toNat ++ [s])
          (st.historyIndex + 1) = some (s.1, s.2)
        exact getSnap_append_last2 _ _ _ (by rw [hlen1]; omega)
    · have htop : st.historyIndex + 1 = (st.history.length : Int) := by omega
      have hfull : st.history.length = historyLimit := by omega
      rw [saveToHistory_full htop hfull] at hrec
      rw [hrec]
      have hdlen : (st.history.drop 1).length = historyLimit - 1 := by
        rw [List.length_drop, hfull]
      refine ⟨?_, ?_, ?_, ?_, rfl⟩
      · show 0 ≤ st.historyIndex
        omega
      · show st.historyIndex < ((st.history.drop 1 ++ [s]).length : Int)
        rw [List.length_append, hdlen]
        simp only [List.length_cons, List.length_nil]
        unfold historyLimit at *
        omega
      · show (st.history.drop 1 ++ [s]).length ≤ historyLimit
        rw [List.length_append, hdlen]
        simp only [List.length_cons, List.length_nil]
        unfold historyLimit at *
        omega
      · show getSnap (st.history.drop 1 ++ [s]) st.historyIndex = some (s.1, s.2)
        refine getSnap_append_last2 _ _ _ ?_
        rw [hdlen]
        unfold historyLimit at *
        omega

lemma historyEffect_nodes (st : EditorState) :
    (historyEffect st).nodes = st.nodes := by
  unfold historyEffect doSaveToHistory
  split_ifs <;> rfl

lemma historyEffect_links (st : EditorState) :
    (historyEffect st).links = st.links := by
  unfold historyEffect doSaveToHistory
  split_ifs <;> rfl

lemma applyEdit_nodes (st : EditorState) (s : Snap) :
    (applyEdit st s).nodes = s.1 := by
  unfold applyEdit
  rw [historyEffect_nodes]

lemma applyEdit_links (st : EditorState) (s : Snap) :
    (applyEdit st s).links = s.2 := by
  unfold applyEdit
  rw [historyEffect_links]

/-- C5: offering the history engine a state structurally identical to the
snapshot at the current index appends nothing (the whole editor state is
unchanged), and a second offer of the same state after a first one is a
no-op — two structurally identical consecutive states produce exactly one
history entry, not two. -/
theorem c5_dedup_no_new_entry (st : EditorState) (s : Snap) (hg : Good st) :
    applyEdit st (st.nodes, st.links) = st ∧
    applyEdit (applyEdit st s) s = applyEdit st s := by
  refine ⟨applyEdit_self hg, ?_⟩
  obtain ⟨h0, hlt, hle, hset, hflag⟩ := hg
  by_cases hcur : s = (st.nodes, st.links)
  · simp only [hcur, applyEdit_self ⟨h0, hlt, hle, hset, hflag⟩]
  · by_cases hnt : s.1 ≠ [] ∨ s.2 ≠ []
    · have hg2 := good_applyEdit ⟨h0, hlt, hle, hset, hflag⟩ hnt
      have hrec := applyEdit_eq_record hflag
        (good_getSnap_ne ⟨h0, hlt, hle, hset, hflag⟩ hcur) hnt
      rw [hrec] at hg2 ⊢
      exact applyEdit_self hg2
    · push_neg at hnt
      rw [applyEdit_trivial hflag hnt.1 hnt.2]
      have hf2 : ({ st with nodes := s.1, links := s.2 } :
          EditorState).isUndoRedoAction = false := hflag
      rw [applyEdit_trivial hf2 hnt.1 hnt.2]

/-- Witness for `c5_dedup_no_new_entry` at a concrete settled state. -/
theorem c5_witness :
    Good (seeded ([nodeA], [])) ∧
    applyEdit (seeded ([nodeA], []))
        ((seeded ([nodeA], [])).nodes, (seeded ([nodeA], [])).links) =
      seeded ([nodeA], []) :=
  ⟨by decide,
    (c5_dedup_no_new_entry (seeded ([nodeA], [])) ([nodeB], [])
      (by decide)).1⟩

lemma loadModel_eq (st : EditorState) (m : SavedModel) :
    loadModel st m = ⟨m.nodes, m.links, [(m.nodes, m.links)], 0, false⟩ := by
  have hget : getSnap [(m.nodes, m.links)] 0 = some (m.nodes, m.links) := by
    simp [getSnap]
  unfold loadModel historyEffect doSaveToHistory
  split_ifs with h1 h2 h3 <;> first
    | rfl
    | exact absurd hget h3

lemma createNewModel_eq (st : EditorState) :
    createNewModel st = ⟨[], [], [([], [])], 0, false⟩ := by
  unfold createNewModel historyEffect doSaveToHistory
  split_ifs with h1 h2 h3 <;> first
    | rfl
    | (exfalso; exact h2 (by simp) )
    | exact absurd (by simp [getSnap] :
        getSnap [([], [])] 0 = some (([] : List Node), ([] : List Link))) h3

/-- C8: loading a saved model (or creating a new empty model) resets the
history to a single-entry stack holding exactly the loaded (or empty)
state with the index on it, and undo is then a no-op. -/
theorem c8_load_resets_history (st : EditorState) (m : SavedModel) :
    (loadModel st m).history = [(m.nodes, m.links)] ∧
    (loadModel st m).historyIndex = 0 ∧
    (loadModel st m).nodes = m.nodes ∧
    (loadModel st m).links = m.links ∧
    undo (loadModel st m) = some (loadModel st m) ∧
    (createNewModel st).history = [([], [])] ∧
    (createNewModel st).historyIndex = 0 ∧
    (createNewModel st).nodes = [] ∧
    (createNewModel st).links = [] ∧
    undo (createNewModel st) = some (createNewModel st) := by
  rw [loadModel_eq, createNewModel_eq]
  refine ⟨rfl, rfl, rfl, rfl, ?_, rfl, rfl, rfl, rfl, ?_⟩ <;> simp [undo]

lemma applyEdit_history_cases (st : EditorState) (s : Snap) :
    ((applyEdit st s).history = st.history ∧
      (applyEdit st s).historyIndex = st.historyIndex) ∨
    ((applyEdit st s).history = (saveToHistory st.history st.historyIndex s).1 ∧
      (applyEdit st s).historyIndex =
        (saveToHistory st.history st.historyIndex s).2) := by
  unfold applyEdit historyEffect doSaveToHistory
  split_ifs <;> first
    | exact Or.inl ⟨rfl, rfl⟩
    | exact Or.inr ⟨rfl, rfl⟩

lemma saveToHistory_bounds {h : List Snap} {idx : Int} {entry : Snap}
    (hInv : (h = [] ∧ idx = -1) ∨
      (0 ≤ idx ∧ idx < (h.length : Int) ∧ h.length ≤ historyLimit)) :
    0 ≤ (saveToHistory h idx entry).2 ∧
    (saveToHistory h idx entry).2 <
      ((saveToHistory h idx entry).1.length : Int) ∧
    (saveToHistory h idx entry).1.length ≤ historyLimit := by
  rcases hInv with ⟨he, hi⟩ | ⟨h0, hlt, hle⟩
  · subst he
    subst hi
    refine ⟨?_, ?_, ?_⟩ <;>
      simp [saveToHistory, historyLimit]
  · by_cases hsmall : idx + 1 < (historyLimit : Int)
    · rw [saveToHistory_mid h0 hlt hsmall]
      have hlen1 : (h.take (idx + 1).toNat).length = (idx + 1).toNat := by
        rw [List.length_take]
        omega
      refine ⟨by omega, ?_, ?_⟩ <;>
        · show _
          simp only [List.length_append, hlen1, List.length_cons,
            List.length_nil]
          omega
    · have htop : idx + 1 = (h.length : Int) := by omega
      have hfull : h.length = historyLimit := by omega
      rw [saveToHistory_full htop hfull]
      have hdlen : (h.drop 1).length = historyLimit - 1 := by
        rw [List.length_drop, hfull]
      refine ⟨by omega, ?_, ?_⟩ <;>
        · show _
          simp only [List.length_append, hdlen, List.length_cons,
            List.length_nil]
          unfold historyLimit at *
          omega

lemma inv_applyEdit {st : EditorState} (hInv : ReachInv st) (s : Snap) :
    ReachInv (applyEdit st s) := by
  rcases applyEdit_history_cases st s with ⟨hh, hi⟩ | ⟨hh, hi⟩
  · rw [ReachInv, hh, hi]
    exact hInv
  · right
    rw [hh, hi]
    exact saveToHistory_bounds hInv

lemma getSnap_isSome {h : List Snap} {i : Int} (h0 : 0 ≤ i)
    (hlt : i < (h.length : Int)) : ∃ p, getSnap h i = some p := by
  unfold getSnap
  rw [if_pos h0]
  have hn : i.toNat < h.length := by omega
  exact ⟨h.get ⟨i.toNat, hn⟩, List.get?_eq_get hn⟩

lemma inv_undo {st : EditorState} (hInv : ReachInv st) :
    ∃ st1, undo st = some st1 ∧ ReachInv st1 ∧
      st1.history = st.history := by
  unfold undo
  by_cases hpos : 0 < st.historyIndex
  · have hb : 0 ≤ st.historyIndex ∧ st.historyIndex < (st.history.length : Int)
        ∧ st.history.length ≤ historyLimit := by
      rcases hInv with ⟨_, hi⟩ | hb
      · omega
      · exact hb
    obtain ⟨p, hp⟩ := getSnap_isSome (by omega) (by omega :
      st.historyIndex - 1 < (st.history.length : Int))
    rw [if_pos hpos, hp]
    refine ⟨_, rfl, ?_, ?_⟩
    · dsimp only
      rw [historyEffect_flagTrue rfl]
      right
      refine ⟨?_, ?_, ?_⟩
      · show 0 ≤ st.historyIndex - 1
        omega
      · show st.historyIndex - 1 < (st.history.length : Int)
        omega
      · show st.history.length ≤ historyLimit
        exact hb.2.2
    · dsimp only
      rw [historyEffect_flagTrue rfl]
  · rw [if_neg hpos]
    exact ⟨st, rfl, hInv, rfl⟩

lemma inv_redo {st : EditorState} (hInv : ReachInv st) :
    ∃ st2, redo st = some st2 ∧ ReachInv st2 ∧
      st2.history = st.history := by
  unfold redo
  by_cases hpos : st.historyIndex < (st.history.length : Int) - 1
  · have hb : 0 ≤ st.historyIndex ∧ st.historyIndex < (st.history.length : Int)
        ∧ st.history.length ≤ historyLimit := by
      rcases hInv with ⟨he, hi⟩ | hb
      · rw [he] at hpos
        simp at hpos
        omega
      · exact hb
    obtain ⟨p, hp⟩ := getSnap_isSome (by omega) (by omega :
      st.historyIndex + 1 < (st.history.length : Int))
    rw [if_pos hpos, hp]
    refine ⟨_, rfl, ?_, ?_⟩
    · dsimp only
      rw [historyEffect_flagTrue rfl]
      right
      refine ⟨?_, ?_, ?_⟩
      · show 0 ≤ st.historyIndex + 1
        omega
      · show st.historyIndex + 1 < (st.history.length : Int)
        omega
      · show st.history.length ≤ historyLimit
        exact hb.2.2
    · dsimp only
      rw [historyEffect_flagTrue rfl]
  · rw [if_neg hpos]
    exact ⟨st, rfl, hInv, rfl⟩

lemma inv_loadModel (st : EditorState) (m : SavedModel) :
    ReachInv (loadModel st m) := by
  rw [loadModel_eq]
  right
  refine ⟨le_refl 0, by simp, by norm_num [historyLimit]⟩

lemma inv_createNewModel (st : EditorState) :
    ReachInv (createNewModel st) := by
  rw [createNewModel_eq]
  right
  refine ⟨le_refl 0, by simp, by norm_num [historyLimit]⟩

/-- C10: from any reachable state, each history-touching operation
(record, undo, redo, load, new model) preserves reachability, and
whenever the stack is non-empty the index satisfies
`0 ≤ historyIndex ≤ history.length - 1`; undo and redo never dereference
a missing snapshot (they always return a state). -/
theorem c10_index_in_bounds (st : EditorState) (s : Snap) (m : SavedModel)
    (hInv : ReachInv st) :
    ReachInv (applyEdit st s) ∧ InBounds (applyEdit st s) ∧
    (∃ st1, undo st = some st1 ∧ ReachInv st1 ∧ InBounds st1) ∧
    (∃ st2, redo st = some st2 ∧ ReachInv st2 ∧ InBounds st2) ∧
    ReachInv (loadModel st m) ∧ InBounds (loadModel st m) ∧
    ReachInv (createNewModel st) ∧ InBounds (createNewModel st) := by
  obtain ⟨st1, hu, hi1, _⟩ := inv_undo hInv
  obtain ⟨st2, hr, hi2, _⟩ := inv_redo hInv
  exact ⟨inv_applyEdit hInv s, inBounds_of_inv (inv_applyEdit hInv s),
    ⟨st1, hu, hi1, inBounds_of_inv hi1⟩,
    ⟨st2, hr, hi2, inBounds_of_inv hi2⟩,
    inv_loadModel st m, inBounds_of_inv (inv_loadModel st m),
    inv_createNewModel st, inBounds_of_inv (inv_createNewModel st)⟩

/-- Witness for `c10_index_in_bounds` at a concrete reachable state. -/
theorem c10_witness :
    ReachInv (seeded ([nodeA], [])) ∧
    ReachInv (applyEdit (seeded ([nodeA], [])) ([nodeB], [])) :=
  ⟨by decide,
    (c10_index_in_bounds (seeded ([nodeA], [])) ([nodeB], [])
      ⟨"m", "m", [], []⟩ (by decide)).1⟩

lemma inv_applyEdits {st : EditorState} (hInv : ReachInv st)
    (ss : List Snap) : ReachInv (applyEdits st ss) := by
  induction ss generalizing st with
  | nil => exact hInv
  | cons s rest ih => exact ih (inv_applyEdit hInv s)

/-- C3: for every sequence of edits from a settled state the history
stack never exceeds `HISTORY_LIMIT = 20` entries, and an edit recorded
with the stack full (20 entries, index on the newest) evicts exactly the
oldest (first) entry. -/
theorem c3_history_bounded (st : EditorState) (ss : List Snap) (s : Snap)
    (hg : Good st) :
    (applyEdits st ss).history.length ≤ historyLimit ∧
    (st.history.length = historyLimit →
      st.historyIndex = (historyLimit : Int) - 1 →
      s ≠ (st.nodes, st.links) → (s.1 ≠ [] ∨ s.2 ≠ []) →
      (applyEdit st s).history = st.history.drop 1 ++ [s]) := by
  constructor
  · rcases inv_applyEdits (inv_of_good hg) ss with ⟨he, _⟩ | ⟨_, _, hle⟩
    · rw [he]
      simp [historyLimit]
    · exact hle
  · intro hfull hidx hne hnt
    have hrec := applyEdit_eq_record hg.2.2.2.2
      (good_getSnap_ne hg hne) hnt
    have htop : st.historyIndex + 1 = (st.history.length : Int) := by omega
    rw [saveToHistory_full htop hfull] at hrec
    rw [hrec]

/-- Witness for `c3_history_bounded` at a concrete settled state. -/
theorem c3_witness :
    Good (seeded ([nodeA], [])) ∧
    (applyEdits (seeded ([nodeA], [])) [([nodeB], [])]).history.length
      ≤ historyLimit :=
  ⟨by decide,
    (c3_history_bounded (seeded ([nodeA], [])) [([nodeB], [])]
      ([nodeC], []) (by decide)).1⟩

/-- Consecutive snapshots in the edit sequence differ (each edit is
record-triggering relative to its predecessor). -/
def ConsecDistinct : Snap → List Snap → Prop
  | _, [] => True
  | a, b :: rest => a ≠ b ∧ ConsecDistinct b rest

instance instDecConsecDistinct :
    ∀ (a : Snap) (ss : List Snap), Decidable (ConsecDistinct a ss)
  | _, [] => isTrue trivial
  | a, b :: rest =>
    @instDecidableAnd _ _ _ (instDecConsecDistinct b rest)

lemma applyEdit_push {st : EditorState} {s : Snap} (hg : Good st)
    (htop : st.historyIndex + 1 = (st.history.length : Int))
    (hlen : st.history.length ≤ historyLimit - 1)
    (hnt : s.1 ≠ [] ∨ s.2 ≠ []) (hne : s ≠ (st.nodes, st.links)) :
    applyEdit st s =
      ⟨s.1, s.2, st.history ++ [s], st.historyIndex + 1, false⟩ := by
  have hrec := applyEdit_eq_record hg.2.2.2.2 (good_getSnap_ne hg hne) hnt
  rw [saveToHistory_push hg.1 htop hlen] at hrec
  exact hrec

lemma good_state_eta {st : EditorState} (hflag : st.isUndoRedoAction = false) :
    st = ⟨st.nodes, st.links, st.history, st.historyIndex, false⟩ := by
  cases st
  simp_all

lemma applyEdits_chain {st : EditorState} :
    ∀ (ss : List Snap), Good st →
    st.historyIndex + 1 = (st.history.length : Int) →
    st.history.length + ss.length ≤ historyLimit →
    ConsecDistinct (st.nodes, st.links) ss →
    (∀ t ∈ ss, t.1 ≠ [] ∨ t.2 ≠ []) →
    applyEdits st ss = ⟨(ss.getLastD (st.nodes, st.links)).1,
      (ss.getLastD (st.nodes, st.links)).2,
      st.history ++ ss, st.historyIndex + ss.length, false⟩ := by
  intro ss
  induction ss generalizing st with
  | nil =>
    intro hg htop hlen hchain hallnt
    simp only [applyEdits, List.foldl_nil, List.getLastD_nil,
      List.append_nil, List.length_nil, Nat.cast_zero, add_zero]
    exact good_state_eta hg.2.2.2.2
  | cons s rest ih =>
    intro hg htop hlen hchain hallnt
    have hne : s ≠ (st.nodes, st.links) := Ne.symm hchain.1
    have hnt : s.1 ≠ [] ∨ s.2 ≠ [] := hallnt s (List.mem_cons_self s rest)
    have hlen1 : st.history.length ≤ historyLimit - 1 := by
      have := hlen
      simp only [List.length_cons] at this
      omega
    have hpush := applyEdit_push hg htop hlen1 hnt hne
    have hg2 : Good (applyEdit st s) := good_applyEdit hg hnt
    rw [hpush] at hg2
    have happ : applyEdits st (s :: rest) = applyEdits (applyEdit st s) rest := by
      simp [applyEdits]
    rw [happ, hpush]
    have hrec := ih hg2 (by
        show st.historyIndex + 1 + 1 = ((st.history ++ [s]).length : Int)
        rw [List.length_append]
        simp only [List.length_cons, List.length_nil]
        omega)
      (by
        show (st.history ++ [s]).length + rest.length ≤ historyLimit
        rw [List.length_append]
        simp only [List.length_cons, List.length_nil, List.length_cons] at hlen ⊢
        omega)
      hchain.2
      (fun t ht => hallnt t (List.mem_cons_of_mem s ht))
    rw [hrec]
    have hl1 : (st.history ++ [s]) ++ rest = st.history ++ (s :: rest) := by
      rw [List.append_assoc]
      rfl
    have hl2 : st.historyIndex + 1 + (rest.length : Int) =
        st.historyIndex + ((s :: rest).length : Int) := by
      simp only [List.length_cons]
      push_cast
      ring
    have hl3 : rest.getLastD s = (s :: rest).getLastD (st.nodes, st.links) := by
      rw [List.getLastD_cons]
    rw [hl1, hl2, hl3]

lemma undo_good {st : EditorState} (hg : Good st)
    (hpos : 0 < st.historyIndex) :
    ∃ p, getSnap st.history (st.historyIndex - 1) = some p ∧
      undo st = some ⟨p.1, p.2, st.history, st.historyIndex - 1, false⟩ ∧
      Good (⟨p.1, p.2, st.history, st.historyIndex - 1, false⟩ :
        EditorState) := by
  obtain ⟨h0, hlt, hle, hset, hflag⟩ := hg
  obtain ⟨p, hp⟩ := getSnap_isSome
    (by omega : (0 : Int) ≤ st.historyIndex - 1)
    (by omega : st.historyIndex - 1 < (st.history.length : Int))
  refine ⟨p, hp, ?_, ?_⟩
  · unfold undo
    rw [if_pos hpos, hp]
    dsimp only [Option.map_some']
    rw [historyEffect_flagTrue rfl]
  · refine ⟨?_, ?_, ?_, ?_, rfl⟩
    · show (0 : Int) ≤ st.historyIndex - 1
      omega
    · show st.historyIndex - 1 < (st.history.length : Int)
      omega
    · show st.history.length ≤ historyLimit
      exact hle
    · show getSnap st.history (st.historyIndex - 1) = some (p.1, p.2)
      simpa using hp

lemma redo_good {st : EditorState} (hg : Good st)
    (hpos : st.historyIndex < (st.history.length : Int) - 1) :
    ∃ p, getSnap st.history (st.historyIndex + 1) = some p ∧
      redo st = some ⟨p.1, p.2, st.history, st.historyIndex + 1, false⟩ ∧
      Good (⟨p.1, p.2, st.history, st.historyIndex + 1, false⟩ :
        EditorState) := by
  obtain ⟨h0, hlt, hle, hset, hflag⟩ := hg
  obtain ⟨p, hp⟩ := getSnap_isSome
    (by omega : (0 : Int) ≤ st.historyIndex + 1)
    (by omega : st.historyIndex + 1 < (st.history.length : Int))
  refine ⟨p, hp, ?_, ?_⟩
  · unfold redo
    rw [if_pos hpos, hp]
    dsimp only [Option.map_some']
    rw [historyEffect_flagTrue rfl]
  · refine ⟨?_, ?_, ?_, ?_, rfl⟩
    · show (0 : Int) ≤ st.historyIndex + 1
      omega
    · show st.historyIndex + 1 < (st.history.length : Int)
      omega
    · show st.history.length ≤ historyLimit
      exact hle
    · show getSnap st.history (st.historyIndex + 1) = some (p.1, p.2)
      simpa using hp

lemma undoN_spec {st : EditorState} :
    ∀ (j : Nat), Good st → (j : Int) ≤ st.historyIndex →
    ∃ stj, undoN j st = some stj ∧ stj.history = st.history ∧
      stj.historyIndex = st.historyIndex - j ∧ Good stj ∧
      getSnap st.history (st.historyIndex - j) =
        some (stj.nodes, stj.links) := by
  intro j
  induction j generalizing st with
  | zero =>
    intro hg _
    refine ⟨st, rfl, rfl, by simp, hg, by simpa using hg.2.2.2.1⟩
  | succ j ih =>
    intro hg hle
    have hpos : 0 < st.historyIndex := by
      have h0 := hg.1
      omega
    obtain ⟨p, hp, hu, hg1⟩ := undo_good hg hpos
    have hle1 : (j : Int) ≤
        (⟨p.1, p.2, st.history, st.historyIndex - 1, false⟩ :
          EditorState).historyIndex := by
      show (j : Int) ≤ st.historyIndex - 1
      push_cast at hle
      omega
    obtain ⟨stj, hun, hh, hi, hgj, hcur⟩ := ih hg1 hle1
    dsimp only at hh hi hcur
    have hcast : st.historyIndex - 1 - (j : Int) =
        st.historyIndex - ((j + 1 : Nat) : Int) := by
      push_cast
      ring
    refine ⟨stj, ?_, hh, ?_, hgj, ?_⟩
    · show (undo st).bind (undoN j) = some stj
      rw [hu]
      exact hun
    · rw [hi, hcast]
    · rw [hcast] at hcur
      exact hcur

lemma redoN_spec {st : EditorState} :
    ∀ (j : Nat), Good st →
    st.historyIndex + (j : Int) ≤ (st.history.length : Int) - 1 →
    ∃ stj, redoN j st = some stj ∧ stj.history = st.history ∧
      stj.historyIndex = st.historyIndex + j ∧ Good stj ∧
      getSnap st.history (st.historyIndex + j) =
        some (stj.nodes, stj.links) := by
  intro j
  induction j generalizing st with
  | zero =>
    intro hg _
    refine ⟨st, rfl, rfl, by simp, hg, by simpa using hg.2.2.2.1⟩
  | succ j ih =>
    intro hg hle
    have hpos : st.historyIndex < (st.history.length : Int) - 1 := by
      push_cast at hle
      omega
    obtain ⟨p, hp, hu, hg1⟩ := redo_good hg hpos
    have hle1 : (⟨p.1, p.2, st.history, st.historyIndex + 1, false⟩ :
          EditorState).historyIndex + (j : Int) ≤
        ((⟨p.1, p.2, st.history, st.historyIndex + 1, false⟩ :
          EditorState).history.length : Int) - 1 := by
      show st.historyIndex + 1 + (j : Int) ≤ (st.history.length : Int) - 1
      push_cast at hle
      omega
    obtain ⟨stj, hun, hh, hi, hgj, hcur⟩ := ih hg1 hle1
    dsimp only at hh hi hcur
    have hcast : st.historyIndex + 1 + (j : Int) =
        st.historyIndex + ((j + 1 : Nat) : Int) := by
      push_cast
      ring
    refine ⟨stj, ?_, hh, ?_, hgj, ?_⟩
    · show (redo st).bind (redoN j) = some stj
      rw [hu]
      exact hun
    · rw [hi, hcast]
    · rw [hcast] at hcur
      exact hcur

lemma getSnap_append_left {A B : List Snap} {i : Int} (h0 : 0 ≤ i)
    (hlt : i < (A.length : Int)) : getSnap (A ++ B) i = getSnap A i := by
  unfold getSnap
  rw [if_pos h0, if_pos h0, List.get?_eq_getElem?, List.get?_eq_getElem?,
    List.getElem?_append_left (by omega)]

lemma getSnap_take {h : List Snap} {k : Nat} {i : Int} (h0 : 0 ≤ i)
    (hlt : i < (k : Int)) : getSnap (h.take k) i = getSnap h i := by
  unfold getSnap
  rw [if_pos h0, if_pos h0, List.get?_eq_getElem?, List.get?_eq_getElem?,
    List.getElem?_take, if_pos (by omega)]

lemma getSnap_drop {h : List Snap} {n : Nat} {i : Int} (h0 : 0 ≤ i) :
    getSnap (h.drop n) i = getSnap h (n + i) := by
  unfold getSnap
  rw [if_pos h0, if_pos (by omega)]
  rw [List.get?_eq_getElem?, List.get?_eq_getElem?, List.getElem?_drop]
  congr 1
  omega

lemma single_roundtrip {st : EditorState} {s : Snap} (hg : Good st)
    (hnt : s.1 ≠ [] ∨ s.2 ≠ []) (hne : s ≠ (st.nodes, st.links)) :
    ∃ st1, undo (applyEdit st s) = some st1 ∧ st1.nodes = st.nodes ∧
      st1.links = st.links ∧
      ∃ st2, redo st1 = some st2 ∧ st2.nodes = s.1 ∧ st2.links = s.2 := by
  obtain ⟨h0, hlt, hle, hset, hflag⟩ := hg
  have hg0 : Good st := ⟨h0, hlt, hle, hset, hflag⟩
  have hg2 := good_applyEdit hg0 hnt
  have hrec := applyEdit_eq_record hflag (good_getSnap_ne hg0 hne) hnt
  have hposcur : 0 < (applyEdit st s).historyIndex ∧
      getSnap (applyEdit st s).history ((applyEdit st s).historyIndex - 1) =
        some (st.nodes, st.links) := by
    by_cases hsmall : st.historyIndex + 1 < (historyLimit : Int)
    · rw [saveToHistory_mid h0 hlt hsmall] at hrec
      rw [hrec]
      have hlen1 : (st.history.take (st.historyIndex + 1).toNat).length
          = (st.historyIndex + 1).toNat := by
        rw [List.length_take]
        omega
      constructor
      · show 0 < st.historyIndex + 1
        omega
      · show getSnap (st.history.take (st.historyIndex + 1).toNat ++ [s])
          (st.historyIndex + 1 - 1) = some (st.nodes, st.links)
        have h1 : st.historyIndex + 1 - 1 = st.historyIndex := by ring
        rw [h1, getSnap_append_left h0 (by rw [hlen1]; omega),
          getSnap_take h0 (by omega), hset]
    · have htop : st.historyIndex + 1 = (st.history.length : Int) := by omega
      have hfull : st.history.length = historyLimit := by omega
      rw [saveToHistory_full htop hfull] at hrec
      rw [hrec]
      have hdlen : (st.history.drop 1).length = historyLimit - 1 := by
        rw [List.length_drop, hfull]
      constructor
      · show 0 < st.historyIndex
        unfold historyLimit at hsmall
        omega
      · show getSnap (st.history.drop 1 ++ [s]) (st.historyIndex - 1) =
          some (st.nodes, st.links)
        have hgt : (0 : Int) ≤ st.historyIndex - 1 := by
          unfold historyLimit at hsmall
          omega
        rw [getSnap_append_left hgt (by
            rw [hdlen]
            unfold historyLimit at hfull ⊢
            omega),
          getSnap_drop hgt]
        have h2 : (1 : Nat) + (st.historyIndex - 1) = st.historyIndex := by
          push_cast
          ring
        rw [h2, hset]
  obtain ⟨hpos, hcur⟩ := hposcur
  obtain ⟨p, hp, hu, hg1⟩ := undo_good hg2 hpos
  have hpe : p = (st.nodes, st.links) :=
    Option.some_injective _ (hp.symm.trans hcur)
  refine ⟨_, hu, ?_, ?_, ?_⟩
  · show p.1 = st.nodes
    rw [hpe]
  · show p.2 = st.links
    rw [hpe]
  · have hpos2 : (⟨p.1, p.2, (applyEdit st s).history,
        (applyEdit st s).historyIndex - 1, false⟩ :
          EditorState).historyIndex <
        ((⟨p.1, p.2, (applyEdit st s).history,
          (applyEdit st s).historyIndex - 1, false⟩ :
            EditorState).history.length : Int) - 1 := by
      show (applyEdit st s).historyIndex - 1 <
        ((applyEdit st s).history.length : Int) - 1
      have := hg2.2.1
      omega
    obtain ⟨q, hq, hr, hgq⟩ := redo_good hg1 hpos2
    dsimp only at hq hr
    have hidx : (applyEdit st s).historyIndex - 1 + 1 =
        (applyEdit st s).historyIndex := by ring
    rw [hidx] at hq
    have hcur2 : getSnap (applyEdit st s).history
        (applyEdit st s).historyIndex = some (s.1, s.2) := by
      have hsettle := hg2.2.2.2.1
      rw [applyEdit_nodes, applyEdit_links] at hsettle
      exact hsettle
    have hqe : q = (s.1, s.2) :=
      Option.some_injective _ (hq.symm.trans hcur2)
    refine ⟨_, hr, ?_, ?_⟩
    · show q.1 = s.1
      rw [hqe]
    · show q.2 = s.2
      rw [hqe]

lemma good_applyEdits {st : EditorState} :
    ∀ ss : List Snap, Good st → (∀ t ∈ ss, t.1 ≠ [] ∨ t.2 ≠ []) →
    Good (applyEdits st ss) := by
  intro ss
  induction ss generalizing st with
  | nil =>
    intro hg _
    exact hg
  | cons s rest ih =>
    intro hg hallnt
    have h1 : applyEdits st (s :: rest) = applyEdits (applyEdit st s) rest := by
      simp [applyEdits]
    rw [h1]
    exact ih (good_applyEdit hg (hallnt s (List.mem_cons_self s rest)))
      (fun t ht => hallnt t (List.mem_cons_of_mem s ht))

lemma getSnap_getD {l : List Snap} {i : Int} {p : Snap}
    (h : getSnap l i = some p) (d : Snap) : l.getD i.toNat d = p := by
  unfold getSnap at h
  split_ifs at h with h0
  rw [List.getD_eq_getElem?_getD, ← List.get?_eq_getElem?, h]
  rfl

lemma good_seeded (s : Snap) : Good (seeded s) := by
  refine ⟨le_refl 0, by simp [seeded], by norm_num [seeded, historyLimit],
    ?_, rfl⟩
  simp [seeded, getSnap]

/-- C1: (i) from any settled state, a single record-triggering mutation
followed by `undo()` restores exactly the pre-mutation `(nodes, links)`
pair, and `redo()` right after restores the post-mutation pair;
(ii) after seeding with one snapshot and applying `HISTORY_LIMIT - 1 = 19`
record-triggering edits, each of the 19 consecutive undos lands on
snapshot `19 - j` of the recorded chain (ending on the seed), and the
matching redos walk back up to the newest edit. -/
theorem c1_undo_redo_roundtrip (st : EditorState) (s : Snap) (sigma : Snap)
    (ss : List Snap) (hg : Good st) (hnt : s.1 ≠ [] ∨ s.2 ≠ [])
    (hne : s ≠ (st.nodes, st.links))
    (hlen : ss.length = historyLimit - 1) (hchain : ConsecDistinct sigma ss)
    (hallnt : ∀ t ∈ ss, t.1 ≠ [] ∨ t.2 ≠ []) :
    (∃ st1, undo (applyEdit st s) = some st1 ∧ st1.nodes = st.nodes ∧
      st1.links = st.links ∧
      ∃ st2, redo st1 = some st2 ∧ st2.nodes = s.1 ∧ st2.links = s.2) ∧
    (∀ j : Nat, j ≤ ss.length →
      ∃ stu, undoN j (applyEdits (seeded sigma) ss) = some stu ∧
        (stu.nodes, stu.links) = (sigma :: ss).getD (ss.length - j) sigma) ∧
    (∀ j : Nat, j ≤ ss.length →
      ∃ str0, (undoN ss.length (applyEdits (seeded sigma) ss)).bind (redoN j)
          = some str0 ∧
        (str0.nodes, str0.links) = (sigma :: ss).getD j sigma) := by
  have hgseed := good_seeded sigma
  have hch := applyEdits_chain ss hgseed
    (by
      show (0 : Int) + 1 = (([sigma] : List Snap).length : Int)
      simp)
    (by
      show (1 : Nat) + ss.length ≤ historyLimit
      rw [hlen]
      unfold historyLimit
      omega)
    hchain hallnt
  have hgstar := good_applyEdits ss hgseed hallnt
  have hidx : (applyEdits (seeded sigma) ss).historyIndex =
      (ss.length : Int) := by
    rw [hch]
    show (0 : Int) + ss.length = ss.length
    ring
  have hhist : (applyEdits (seeded sigma) ss).history = sigma :: ss := by
    rw [hch]
    rfl
  refine ⟨single_roundtrip hg hnt hne, ?_, ?_⟩
  · intro j hj
    obtain ⟨stu, hun, hh, hi, hgu, hcur⟩ := undoN_spec j hgstar
      (by
        rw [hidx]
        exact_mod_cast hj)
    refine ⟨stu, hun, ?_⟩
    rw [hhist, hidx] at hcur
    have hgd := getSnap_getD hcur sigma
    have hidx2 : ((ss.length : Int) - (j : Int)).toNat = ss.length - j := by
      omega
    rw [hidx2] at hgd
    exact hgd.symm
  · intro j hj
    obtain ⟨stu, hun, hh, hi, hgu, _⟩ := undoN_spec ss.length hgstar
      (by
        rw [hidx])
    have hidx0 : stu.historyIndex = 0 := by
      rw [hi, hidx]
      ring
    have hh0 : stu.history = sigma :: ss := by
      rw [hh, hhist]
    obtain ⟨str0, hrn, hh2, hi2, hgr, hcur2⟩ := redoN_spec j hgu
      (by
        rw [hidx0, hh0]
        show (0 : Int) + j ≤ ((sigma :: ss).length : Int) - 1
        simp only [List.length_cons]
        push_cast
        omega)
    refine ⟨str0, ?_, ?_⟩
    · rw [hun]
      exact hrn
    · rw [hh0, hidx0] at hcur2
      have h0j : (0 : Int) + (j : Int) = (j : Int) := by ring
      rw [h0j] at hcur2
      have hgd := getSnap_getD hcur2 sigma
      rw [Int.toNat_natCast] at hgd
      exact hgd.symm

/-- A one-node snapshot used by concrete witnesses. -/
def wSnap (i : String) : Snap :=
  ([⟨i, i, NodeType.latent, 0, 0⟩], [])

/-- A concrete chain of `HISTORY_LIMIT - 1 = 19` pairwise-distinct
record-triggering edits. -/
def wChain : List Snap :=
  [wSnap "1", wSnap "2", wSnap "3", wSnap "4", wSnap "5", wSnap "6",
   wSnap "7", wSnap "8", wSnap "9", wSnap "10", wSnap "11", wSnap "12",
   wSnap "13", wSnap "14", wSnap "15", wSnap "16", wSnap "17", wSnap "18",
   wSnap "19"]

/-- Witness for `c1_undo_redo_roundtrip` at a concrete seeded editor and
a concrete 19-edit chain. -/
theorem c1_witness :
    ConsecDistinct (wSnap "0") wChain ∧
    (∃ st1, undo (applyEdit (seeded (wSnap "0")) (wSnap "20")) = some st1 ∧
      st1.nodes = (seeded (wSnap "0")).nodes ∧
      st1.links = (seeded (wSnap "0")).links ∧
      ∃ st2, redo st1 = some st2 ∧ st2.nodes = (wSnap "20").1 ∧
        st2.links = (wSnap "20").2) :=
  ⟨by decide,
    (c1_undo_redo_roundtrip (seeded (wSnap "0")) (wSnap "20") (wSnap "0")
      wChain (by decide) (by decide) (by decide) (by decide) (by decide)
      (by decide)).1⟩

/-! ## Assignment-table characterization of the auto-layout -/

/-- A pending position assignment: node id and the `(x, y)` to set. -/
abbrev Assign := String × ℚ × ℚ

/-- Apply one assignment to one node. -/
def stepNode (a : Assign) (n : Node) : Node :=
  if n.id = a.1 then { n with x := a.2.1, y := a.2.2 } else n

/-- Apply an assignment list to one node, later entries winning. -/
def applyToNode (asg : List Assign) (n : Node) : Node :=
  asg.foldl (fun m a => stepNode a m) n

/-- Apply an assignment list to a node array. -/
def applyAssigns (asg : List Assign) (ns : List Node) : List Node :=
  ns.map (applyToNode asg)

/-- The last assignment an id receives, if any. -/
def lastAssign : List Assign → String → Option (ℚ × ℚ)
  | [], _ => none
  | a :: rest, i =>
    match lastAssign rest i with
    | some v => some v
    | none => if a.1 = i then some a.2 else none

lemma stepNode_id (a : Assign) (n : Node) : (stepNode a n).id = n.id := by
  unfold stepNode
  split <;> rfl

lemma stepNode_label (a : Assign) (n : Node) :
    (stepNode a n).label = n.label := by
  unfold stepNode
  split <;> rfl

lemma stepNode_type (a : Assign) (n : Node) :
    (stepNode a n).type = n.type := by
  unfold stepNode
  split <;> rfl

lemma applyToNode_id (asg : List Assign) (n : Node) :
    (applyToNode asg n).id = n.id := by
  induction asg generalizing n with
  | nil => rfl
  | cons a rest ih =>
    show (applyToNode rest (stepNode a n)).id = n.id
    rw [ih, stepNode_id]

lemma applyToNode_type (asg : List Assign) (n : Node) :
    (applyToNode asg n).type = n.type := by
  induction asg generalizing n with
  | nil => rfl
  | cons a rest ih =>
    show (applyToNode rest (stepNode a n)).type = n.type
    rw [ih, stepNode_type]

lemma applyToNode_append (A B : List Assign) (n : Node) :
    applyToNode (A ++ B) n = applyToNode B (applyToNode A n) := by
  unfold applyToNode
  rw [List.foldl_append]

lemma applyAssigns_append (A B : List Assign) (ns : List Node) :
    applyAssigns (A ++ B) ns = applyAssigns B (applyAssigns A ns) := by
  unfold applyAssigns
  rw [List.map_map]
  apply List.map_congr_left
  intro n _
  exact applyToNode_append A B n

lemma applyAssigns_nil (ns : List Node) : applyAssigns [] ns = ns := by
  unfold applyAssigns applyToNode
  simp

lemma lastAssign_append (A B : List Assign) (i : String) :
    lastAssign (A ++ B) i =
      match lastAssign B i with
      | some v => some v
      | none => lastAssign A i := by
  induction A with
  | nil =>
    simp only [List.nil_append]
    cases lastAssign B i <;> rfl
  | cons a rest ih =>
    show (match lastAssign (rest ++ B) i with
      | some v => some v
      | none => if a.1 = i then some a.2 else none) = _
    rw [ih]
    simp only [lastAssign]
    cases lastAssign B i <;> cases lastAssign rest i <;> rfl

lemma lastAssign_concat (A : List Assign) (a : Assign) (i : String) :
    lastAssign (A ++ [a]) i =
      if a.1 = i then some a.2 else lastAssign A i := by
  rw [lastAssign_append]
  by_cases h : a.1 = i
  · simp only [lastAssign, if_pos h]
  · simp only [lastAssign, if_neg h]

lemma stepNode_eq_of_id {a : Assign} {n : Node} (h : n.id = a.1) :
    stepNode a n = { n with x := a.2.1, y := a.2.2 } := by
  unfold stepNode
  rw [if_pos h]

lemma stepNode_eq_of_ne {a : Assign} {n : Node} (h : ¬ n.id = a.1) :
    stepNode a n = n := by
  unfold stepNode
  rw [if_neg h]

lemma applyToNode_eq_lastAssign (asg : List Assign) (n : Node) :
    applyToNode asg n =
      match lastAssign asg n.id with
      | some v => { n with x := v.1, y := v.2 }
      | none => n := by
  induction asg using List.reverseRecOn with
  | nil => rfl
  | append_singleton A a ih =>
    rw [applyToNode_append, lastAssign_concat]
    show stepNode a (applyToNode A n) = _
    rw [ih]
    by_cases h : a.1 = n.id
    · rw [if_pos h]
      cases hl : lastAssign A n.id with
      | none => exact stepNode_eq_of_id h.symm
      | some v =>
        rw [stepNode_eq_of_id
          (show ({ n with x := v.1, y := v.2 } : Node).id = a.1 from h.symm)]
    · rw [if_neg h]
      cases hl : lastAssign A n.id with
      | none => exact stepNode_eq_of_ne (fun hh => h hh.symm)
      | some v =>
        rw [stepNode_eq_of_ne
          (show ¬ ({ n with x := v.1, y := v.2 } : Node).id = a.1 from
            fun hh => h hh.symm)]

lemma applyToNode_idem (asg : List Assign) (n : Node) :
    applyToNode asg (applyToNode asg n) = applyToNode asg n := by
  cases hl : lastAssign asg n.id with
  | none =>
    have hn : applyToNode asg n = n := by
      rw [applyToNode_eq_lastAssign asg n, hl]
    rw [hn]
    exact hn
  | some v =>
    have hn : applyToNode asg n = { n with x := v.1, y := v.2 } := by
      rw [applyToNode_eq_lastAssign asg n, hl]
    have hm : applyToNode asg ({ n with x := v.1, y := v.2 } : Node) =
        { n with x := v.1, y := v.2 } := by
      rw [applyToNode_eq_lastAssign asg ({ n with x := v.1, y := v.2 } : Node)]
      have hid : ({ n with x := v.1, y := v.2 } : Node).id = n.id := rfl
      rw [hid, hl]
    rw [hn, hm]

lemma applyAssigns_idem (asg : List Assign) (ns : List Node) :
    applyAssigns asg (applyAssigns asg ns) = applyAssigns asg ns := by
  unfold applyAssigns
  rw [List.map_map]
  apply List.map_congr_left
  intro n _
  exact applyToNode_idem asg n

/-- Assignment list produced by one column placement. -/
def colAssigns (x : ℚ) : List Node → ℚ → List Assign
  | [], _ => []
  | n :: rest, y0 => (n.id, x, y0) :: colAssigns x rest (y0 + nodeGap)

/-- Assignment list produced by one observed row placement. -/
def rowAssigns (y : ℚ) : List Node → ℚ → List Assign
  | [], _ => []
  | n :: rest, x0 => (n.id, x0, y) :: rowAssigns y rest (x0 + observedGap)

lemma placeColumn_eq (x : ℚ) :
    ∀ (ids : List Node) (y0 : ℚ) (acc : List Node),
    placeColumn x ids y0 acc = applyAssigns (colAssigns x ids y0) acc := by
  intro ids
  induction ids with
  | nil =>
    intro y0 acc
    show acc = applyAssigns [] acc
    rw [applyAssigns_nil]
  | cons n rest ih =>
    intro y0 acc
    show placeColumn x rest (y0 + nodeGap) (setPos acc n.id x y0) =
      applyAssigns ((n.id, x, y0) :: colAssigns x rest (y0 + nodeGap)) acc
    rw [ih]
    have hsplit : (n.id, x, y0) :: colAssigns x rest (y0 + nodeGap) =
        [(n.id, x, y0)] ++ colAssigns x rest (y0 + nodeGap) := rfl
    rw [hsplit, applyAssigns_append]
    rfl

lemma placeRow_eq (y : ℚ) :
    ∀ (ids : List Node) (x0 : ℚ) (acc : List Node),
    placeRow y ids x0 acc = applyAssigns (rowAssigns y ids x0) acc := by
  intro ids
  induction ids with
  | nil =>
    intro x0 acc
    show acc = applyAssigns [] acc
    rw [applyAssigns_nil]
  | cons n rest ih =>
    intro x0 acc
    show placeRow y rest (x0 + observedGap) (setPos acc n.id x0 y) =
      applyAssigns ((n.id, x0, y) :: rowAssigns y rest (x0 + observedGap)) acc
    rw [ih]
    have hsplit : (n.id, x0, y) :: rowAssigns y rest (x0 + observedGap) =
        [(n.id, x0, y)] ++ rowAssigns y rest (x0 + observedGap) := rfl
    rw [hsplit, applyAssigns_append]
    rfl

lemma colAssigns_ids (x : ℚ) :
    ∀ (ids : List Node) (y0 : ℚ),
    (colAssigns x ids y0).map (fun a => a.1) = ids.map Node.id := by
  intro ids
  induction ids with
  | nil =>
    intro y0
    rfl
  | cons n rest ih =>
    intro y0
    show n.id :: (colAssigns x rest (y0 + nodeGap)).map (fun a => a.1) =
      n.id :: rest.map Node.id
    rw [ih]

lemma rowAssigns_ids (y : ℚ) :
    ∀ (ids : List Node) (x0 : ℚ),
    (rowAssigns y ids x0).map (fun a => a.1) = ids.map Node.id := by
  intro ids
  induction ids with
  | nil =>
    intro x0
    rfl
  | cons n rest ih =>
    intro x0
    show n.id :: (rowAssigns y rest (x0 + observedGap)).map (fun a => a.1) =
      n.id :: rest.map Node.id
    rw [ih]

lemma lastAssign_eq_none {asg : List Assign} {i : String}
    (h : i ∉ asg.map (fun a => a.1)) : lastAssign asg i = none := by
  induction asg with
  | nil => rfl
  | cons a rest ih =>
    simp only [List.map_cons, List.mem_cons] at h
    push_neg at h
    show (match lastAssign rest i with
      | some v => some v
      | none => if a.1 = i then some a.2 else none) = none
    rw [ih h.2, if_neg (fun hh => h.1 hh.symm)]

lemma lastAssign_isSome {asg : List Assign} {i : String}
    (h : i ∈ asg.map (fun a => a.1)) : (lastAssign asg i).isSome = true := by
  induction asg with
  | nil => simp at h
  | cons a rest ih =>
    show ((match lastAssign rest i with
      | some v => some v
      | none => if a.1 = i then some a.2 else none) :
        Option (ℚ × ℚ)).isSome = true
    simp only [List.map_cons, List.mem_cons] at h
    cases hr : lastAssign rest i with
    | some v => rfl
    | none =>
      rcases h with h | h
      · rw [if_pos h.symm]
        rfl
      · have hc := ih h
        rw [hr] at hc
        simp at hc

/-- Phase A/B assignment table: exogenous column then endogenous column. -/
def abAssigns (nodes : List Node) (links : List Link) : List Assign :=
  colAssigns canvasPadding (exogenousOf nodes links) canvasPadding ++
    colAssigns (canvasPadding + layerGap) (endogenousOf nodes links)
      (endoStartY nodes links)

lemma abAssigns_ids (nodes : List Node) (links : List Link) :
    (abAssigns nodes links).map (fun a => a.1) =
      (exogenousOf nodes links).map Node.id ++
        (endogenousOf nodes links).map Node.id := by
  rw [abAssigns, List.map_append, colAssigns_ids, colAssigns_ids]

lemma latent_mem_abAssigns {nodes : List Node} {links : List Link}
    {l : Node} (hl : l ∈ latentsOf nodes) :
    l.id ∈ (abAssigns nodes links).map (fun a => a.1) := by
  rw [abAssigns_ids, List.mem_append]
  by_cases h : ∃ ex ∈ exogenousOf nodes links, ex.id = l.id
  · left
    obtain ⟨ex, hm, he⟩ := h
    rw [← he]
    exact List.mem_map_of_mem Node.id hm
  · right
    refine List.mem_map_of_mem Node.id ?_
    rw [endogenousOf, List.mem_filter]
    refine ⟨hl, ?_⟩
    simp only [List.any_eq_true, decide_eq_true_eq, not_exists]
    push_neg at h
    exact fun ex hm => h ex hm.1 hm.2

lemma observed_id_not_latent {nodes : List Node}
    (hnodup : (nodes.map Node.id).Nodup) {l : Node}
    (hl : l ∈ latentsOf nodes) :
    l.id ∉ (observedOf nodes).map Node.id := by
  intro hmem
  obtain ⟨o, ho, hid⟩ := List.mem_map.mp hmem
  rw [latentsOf, List.mem_filter] at hl
  rw [observedOf, List.mem_filter] at ho
  have heq : o = l :=
    List.inj_on_of_nodup_map hnodup ho.1 hl.1 hid
  have hto := ho.2
  rw [heq] at hto
  simp only [decide_eq_true_eq] at hto hl
  rw [hl.2] at hto
  exact absurd hto (by decide)

lemma find?_id_map {g : Node → Node} (hid : ∀ n, (g n).id = n.id)
    (ns : List Node) (i : String) :
    (ns.map g).find? (fun n => n.id = i) =
      (ns.find? (fun n => n.id = i)).map g := by
  induction ns with
  | nil => rfl
  | cons n rest ih =>
    by_cases h : n.id = i
    · rw [List.map_cons, List.find?_cons_of_pos _ (by simp [hid n, h]),
        List.find?_cons_of_pos _ (by simp [h])]
      rfl
    · rw [List.map_cons, List.find?_cons_of_neg _ (by simp [hid n, h]),
        List.find?_cons_of_neg _ (by simp [h]), ih]

lemma mem_dedupByIdAux :
    ∀ {xs : List Node} {seen : List String} {n : Node},
    n ∈ dedupByIdAux xs seen → n ∈ xs := by
  intro xs
  induction xs with
  | nil =>
    intro seen n h
    exact absurd h (by simp [dedupByIdAux])
  | cons m rest ih =>
    intro seen n h
    unfold dedupByIdAux at h
    split_ifs at h with hseen
    · exact List.mem_cons_of_mem m (ih h)
    · rcases List.mem_cons.mp h with h | h
      · rw [h]
        exact List.mem_cons_self m rest
      · exact List.mem_cons_of_mem m (ih h)

lemma mem_dedupById {xs : List Node} {n : Node} (h : n ∈ dedupById xs) :
    n ∈ xs :=
  mem_dedupByIdAux h

lemma mem_connectedObsOf {links : List Link} {obs : List Node} {i : String}
    {w : Node} (h : w ∈ connectedObsOf links obs i) :
    w ∈ obs ∧ ∃ lk ∈ links,
      (lk.source = i ∧ w.id = lk.target) ∨
        (lk.target = i ∧ w.id = lk.source) := by
  unfold connectedObsOf at h
  have h2 := mem_dedupById h
  obtain ⟨lk, hlk, hfind⟩ := List.mem_filterMap.mp h2
  rw [List.mem_filter] at hlk
  have hwobs : w ∈ obs := List.mem_of_find?_eq_some hfind
  have hwid := List.find?_some hfind
  simp only [decide_eq_true_eq] at hwid
  have hcond := hlk.2
  simp only [decide_eq_true_eq] at hcond
  refine ⟨hwobs, lk, hlk.1, ?_⟩
  by_cases hs : lk.source = i
  · rw [if_pos hs] at hwid
    exact Or.inl ⟨hs, hwid⟩
  · rw [if_neg hs] at hwid
    rcases hcond with ⟨hs2, _⟩ | ⟨ht2, _⟩
    · exact absurd hs2 hs
    · exact Or.inr ⟨ht2, hwid⟩

/-- Assignment-table reading of `placeObsOf`: the latent's position comes
from the phase-A/B table instead of the working array. -/
def obsAssignsOf (nodes : List Node) (links : List Link) (latent : Node) :
    List Assign :=
  match lastAssign (abAssigns nodes links) latent.id with
  | some v =>
    let cObs := connectedObsOf links (observedOf nodes) latent.id
    if 0 < cObs.length then
      rowAssigns (v.2 + 120) cObs
        (v.1 - ((cObs.length : ℚ) - 1) * observedGap / 2)
    else []
  | none => []

/-- Assignment table of one whole `autoLayout` run; it depends on the
input nodes only through their ids and types. -/
def layoutAssigns (nodes : List Node) (links : List Link) : List Assign :=
  if (latentsOf nodes).isEmpty ∧ (observedOf nodes).isEmpty then []
  else abAssigns nodes links ++
    (latentsOf nodes).foldl
      (fun pr l => pr ++ obsAssignsOf nodes links l) []

lemma obsAssignsOf_ids_sub {nodes : List Node} {links : List Link}
    {latent : Node} {a : Assign} (h : a ∈ obsAssignsOf nodes links latent) :
    a.1 ∈ (observedOf nodes).map Node.id := by
  unfold obsAssignsOf at h
  cases hv : lastAssign (abAssigns nodes links) latent.id with
  | none =>
    rw [hv] at h
    exact absurd h (by simp)
  | some v =>
    rw [hv] at h
    dsimp only at h
    split_ifs at h with hlen
    · have hmm : a.1 ∈ (rowAssigns (v.2 + 120)
          (connectedObsOf links (observedOf nodes) latent.id)
          (v.1 - (((connectedObsOf links (observedOf nodes)
            latent.id).length : ℚ) - 1) * observedGap / 2)).map
            (fun b => b.1) :=
        List.mem_map_of_mem (fun b => b.1) h
      rw [rowAssigns_ids] at hmm
      obtain ⟨w, hw, hwid⟩ := List.mem_map.mp hmm
      rw [← hwid]
      exact List.mem_map_of_mem Node.id (mem_connectedObsOf hw).1
    · exact absurd h (by simp)

lemma placeObs_step {nodes : List Node} {links : List Link}
    (hnodup : (nodes.map Node.id).Nodup) {l : Node}
    (hl : l ∈ latentsOf nodes) (prior : List Assign)
    (hprior : ∀ a ∈ prior, a.1 ∈ (observedOf nodes).map Node.id) :
    placeObsOf nodes links
        (applyAssigns (abAssigns nodes links ++ prior) nodes) l =
      applyAssigns ((abAssigns nodes links ++ prior) ++
        obsAssignsOf nodes links l) nodes := by
  obtain ⟨v, hv⟩ := Option.isSome_iff_exists.mp
    (lastAssign_isSome (latent_mem_abAssigns hl))
  have hdisj : lastAssign prior l.id = none := by
    refine lastAssign_eq_none (fun hmem => ?_)
    obtain ⟨a, ha, haid⟩ := List.mem_map.mp hmem
    exact observed_id_not_latent hnodup hl (haid ▸ hprior a ha)
  have hfull : lastAssign (abAssigns nodes links ++ prior) l.id = some v := by
    rw [lastAssign_append, hdisj]
    exact hv
  have hmemnodes : l ∈ nodes := by
    rw [latentsOf, List.mem_filter] at hl
    exact hl.1
  have hfs : (nodes.find? (fun n => n.id = l.id)).isSome :=
    List.find?_isSome.mpr ⟨l, hmemnodes, by simp⟩
  obtain ⟨m, hm⟩ := Option.isSome_iff_exists.mp hfs
  have hmid : m.id = l.id := by simpa using List.find?_some hm
  have hlat : applyToNode (abAssigns nodes links ++ prior) m =
      { m with x := v.1, y := v.2 } := by
    rw [applyToNode_eq_lastAssign, hmid, hfull]
  have hobsA : obsAssignsOf nodes links l =
      (if 0 < (connectedObsOf links (observedOf nodes) l.id).length then
        rowAssigns (v.2 + 120)
          (connectedObsOf links (observedOf nodes) l.id)
          (v.1 - (((connectedObsOf links (observedOf nodes)
            l.id).length : ℚ) - 1) * observedGap / 2)
      else []) := by
    unfold obsAssignsOf
    rw [hv]
  unfold placeObsOf
  rw [show applyAssigns (abAssigns nodes links ++ prior) nodes =
      nodes.map (applyToNode (abAssigns nodes links ++ prior)) from rfl]
  rw [find?_id_map (applyToNode_id _) nodes l.id, hm]
  dsimp only [Option.map_some']
  rw [hlat, hobsA]
  rw [show nodes.map (applyToNode (abAssigns nodes links ++ prior)) =
    applyAssigns (abAssigns nodes links ++ prior) nodes from rfl]
  by_cases hlen : 0 < (connectedObsOf links (observedOf nodes) l.id).length
  · rw [if_pos hlen, if_pos hlen]
    rw [placeRow_eq, ← applyAssigns_append]
  · rw [if_neg hlen, if_neg hlen, List.append_nil]

lemma placeObs_fold {nodes : List Node} {links : List Link}
    (hnodup : (nodes.map Node.id).Nodup) :
    ∀ (lats : List Node) (prior : List Assign),
    (∀ l ∈ lats, l ∈ latentsOf nodes) →
    (∀ a ∈ prior, a.1 ∈ (observedOf nodes).map Node.id) →
    lats.foldl (placeObsOf nodes links)
        (applyAssigns (abAssigns nodes links ++ prior) nodes) =
      applyAssigns (abAssigns nodes links ++
        lats.foldl (fun pr l => pr ++ obsAssignsOf nodes links l) prior)
        nodes := by
  intro lats
  induction lats with
  | nil =>
    intro prior _ _
    rfl
  | cons l rest ih =>
    intro prior hlats hprior
    rw [List.foldl_cons, List.foldl_cons,
      placeObs_step hnodup (hlats l (List.mem_cons_self l rest)) prior hprior,
      List.append_assoc]
    exact ih (prior ++ obsAssignsOf nodes links l)
      (fun t ht => hlats t (List.mem_cons_of_mem l ht))
      (fun a ha => by
        rcases List.mem_append.mp ha with ha | ha
        · exact hprior a ha
        · exact obsAssignsOf_ids_sub ha)

/-- `autoLayout` equals applying its assignment table, whenever node ids
are unique (the data-model invariant). -/
theorem autoLayout_eq_applyAssigns (nodes : List Node) (links : List Link)
    (hnodup : (nodes.map Node.id).Nodup) :
    autoLayout nodes links = applyAssigns (layoutAssigns nodes links) nodes := by
  unfold autoLayout layoutAssigns
  by_cases hempty : (latentsOf nodes).isEmpty ∧ (observedOf nodes).isEmpty
  · rw [if_pos hempty, if_pos hempty, applyAssigns_nil]
  · rw [if_neg hempty, if_neg hempty]
    show (latentsOf nodes).foldl (placeObsOf nodes links)
        (placeColumn (canvasPadding + layerGap) (endogenousOf nodes links)
          (endoStartY nodes links)
          (placeColumn canvasPadding (exogenousOf nodes links)
            canvasPadding nodes)) = _
    rw [placeColumn_eq, placeColumn_eq, ← applyAssigns_append]
    have hfold := @placeObs_fold nodes links hnodup (latentsOf nodes) []
      (fun l hl => hl) (by simp)
    rw [List.append_nil] at hfold
    exact hfold

lemma obsAssignsOf_mem_connected {nodes : List Node} {links : List Link}
    {latent : Node} {a : Assign} (h : a ∈ obsAssignsOf nodes links latent) :
    ∃ w ∈ connectedObsOf links (observedOf nodes) latent.id,
      a.1 = w.id := by
  unfold obsAssignsOf at h
  cases hv : lastAssign (abAssigns nodes links) latent.id with
  | none =>
    rw [hv] at h
    exact absurd h (by simp)
  | some v =>
    rw [hv] at h
    dsimp only at h
    split_ifs at h with hlen
    · have hmm : a.1 ∈ (rowAssigns (v.2 + 120)
          (connectedObsOf links (observedOf nodes) latent.id)
          (v.1 - (((connectedObsOf links (observedOf nodes)
            latent.id).length : ℚ) - 1) * observedGap / 2)).map
            (fun b => b.1) :=
        List.mem_map_of_mem (fun b => b.1) h
      rw [rowAssigns_ids] at hmm
      obtain ⟨w, hw, hwid⟩ := List.mem_map.mp hmm
      exact ⟨w, hw, hwid.symm⟩
    · exact absurd h (by simp)

lemma mem_foldl_obsAssigns {nodes : List Node} {links : List Link} :
    ∀ (lats : List Node) (pr : List Assign) (a : Assign),
    a ∈ lats.foldl (fun pr l => pr ++ obsAssignsOf nodes links l) pr →
    a ∈ pr ∨ ∃ l ∈ lats, a ∈ obsAssignsOf nodes links l := by
  intro lats
  induction lats with
  | nil =>
    intro pr a h
    exact Or.inl h
  | cons l rest ih =>
    intro pr a h
    rw [List.foldl_cons] at h
    rcases ih (pr ++ obsAssignsOf nodes links l) a h with h2 | ⟨l2, hl2, ha2⟩
    · rcases List.mem_append.mp h2 with h3 | h3
      · exact Or.inl h3
      · exact Or.inr ⟨l, List.mem_cons_self l rest, h3⟩
    · exact Or.inr ⟨l2, List.mem_cons_of_mem l hl2, ha2⟩

/-- C9: auto-layout leaves every observed node not linked to any latent
untouched — such a node is still present, unchanged, and is the unique
node carrying its id in the output. -/
theorem c9_layout_frame (nodes : List Node) (links : List Link) (o : Node)
    (hnodup : (nodes.map Node.id).Nodup) (ho : o ∈ nodes)
    (hot : o.type = NodeType.observed)
    (hunconn : ∀ l ∈ links,
      ¬((l.source = o.id ∧
          ∃ m ∈ nodes, m.type = NodeType.latent ∧ m.id = l.target) ∨
        (l.target = o.id ∧
          ∃ m ∈ nodes, m.type = NodeType.latent ∧ m.id = l.source))) :
    o ∈ autoLayout nodes links ∧
    ∀ n ∈ autoLayout nodes links, n.id = o.id → n = o := by
  have hchar := autoLayout_eq_applyAssigns nodes links hnodup
  have hobs : o ∈ observedOf nodes := by
    rw [observedOf, List.mem_filter]
    exact ⟨ho, by simp [hot]⟩
  have hnotin : o.id ∉ (layoutAssigns nodes links).map (fun a => a.1) := by
    intro hmem
    obtain ⟨a, ha, haid⟩ := List.mem_map.mp hmem
    unfold layoutAssigns at ha
    split_ifs at ha with hempty
    · exact absurd ha (by simp)
    · rcases List.mem_append.mp ha with ha | ha
      · have hid2 : a.1 ∈ (exogenousOf nodes links).map Node.id ++
            (endogenousOf nodes links).map Node.id := by
          rw [← abAssigns_ids]
          exact List.mem_map_of_mem (fun b => b.1) ha
        have hlat : ∃ ml ∈ latentsOf nodes, ml.id = o.id := by
          rcases List.mem_append.mp hid2 with h2 | h2
          · obtain ⟨ml, hml, hml2⟩ := List.mem_map.mp h2
            exact ⟨ml, List.mem_of_mem_filter hml, by rw [hml2, haid]⟩
          · obtain ⟨ml, hml, hml2⟩ := List.mem_map.mp h2
            exact ⟨ml, List.mem_of_mem_filter hml, by rw [hml2, haid]⟩
        obtain ⟨ml, hml, hmlid⟩ := hlat
        exact observed_id_not_latent hnodup hml
          (hmlid ▸ List.mem_map_of_mem Node.id hobs)
      · rcases mem_foldl_obsAssigns (latentsOf nodes) [] a ha with
          h0 | ⟨l, hl, ha2⟩
        · exact absurd h0 (by simp)
        · obtain ⟨w, hw, hwid⟩ := obsAssignsOf_mem_connected ha2
          obtain ⟨hwobs, lk, hlk, hcase⟩ := mem_connectedObsOf hw
          have hwid2 : w.id = o.id := by rw [← hwid, haid]
          have hlnode : l ∈ nodes := List.mem_of_mem_filter hl
          have hltype : l.type = NodeType.latent := by
            rw [latentsOf, List.mem_filter] at hl
            simpa using hl.2
          rcases hcase with ⟨hs, ht⟩ | ⟨ht, hs⟩
          · exact hunconn lk hlk (Or.inr ⟨ht.symm.trans hwid2,
              l, hlnode, hltype, hs.symm⟩)
          · exact hunconn lk hlk (Or.inl ⟨hs.symm.trans hwid2,
              l, hlnode, hltype, ht.symm⟩)
  have hnone := lastAssign_eq_none hnotin
  have hfix : applyToNode (layoutAssigns nodes links) o = o := by
    rw [applyToNode_eq_lastAssign, hnone]
  constructor
  · rw [hchar]
    show o ∈ nodes.map (applyToNode (layoutAssigns nodes links))
    exact List.mem_map.mpr ⟨o, ho, hfix⟩
  · intro n hn hid
    rw [hchar] at hn
    have hn2 : n ∈ nodes.map (applyToNode (layoutAssigns nodes links)) := hn
    obtain ⟨m, hm, hmn⟩ := List.mem_map.mp hn2
    have hmid : m.id = o.id := by
      rw [← hid, ← hmn, applyToNode_id]
    have hmo : m = o := List.inj_on_of_nodup_map hnodup hm ho hmid
    rw [← hmn, hmo, hfix]

section SkeletonInvariance

variable {g : Node → Node}

lemma isEmpty_map (l : List Node) : (l.map g).isEmpty = l.isEmpty := by
  cases l <;> rfl

lemma latentsOf_map (hty : ∀ n, (g n).type = n.type) (ns : List Node) :
    latentsOf (ns.map g) = (latentsOf ns).map g := by
  unfold latentsOf
  rw [List.filter_map]
  have hfun : ((fun n => decide (n.type = NodeType.latent)) ∘ g) =
      (fun n => decide (n.type = NodeType.latent)) :=
    funext fun n => by simp only [Function.comp_apply, hty n]
  rw [hfun]

lemma observedOf_map (hty : ∀ n, (g n).type = n.type) (ns : List Node) :
    observedOf (ns.map g) = (observedOf ns).map g := by
  unfold observedOf
  rw [List.filter_map]
  have hfun : ((fun n => decide (n.type = NodeType.observed)) ∘ g) =
      (fun n => decide (n.type = NodeType.observed)) :=
    funext fun n => by simp only [Function.comp_apply, hty n]
  rw [hfun]

lemma any_id_map (hid : ∀ n, (g n).id = n.id) (L : List Node) (i : String) :
    ((L.map g).any fun o => o.id = i) = (L.any fun o => o.id = i) := by
  rw [List.any_map]
  have hfun : ((fun o => decide (o.id = i)) ∘ g) =
      (fun o => decide (o.id = i)) :=
    funext fun o => by simp only [Function.comp_apply, hid o]
  rw [hfun]

lemma exogenousOf_map (hid : ∀ n, (g n).id = n.id)
    (hty : ∀ n, (g n).type = n.type) (ns : List Node) (links : List Link) :
    exogenousOf (ns.map g) links = (exogenousOf ns links).map g := by
  unfold exogenousOf
  rw [latentsOf_map hty, List.filter_map]
  have hfun : ((fun l => decide (¬ (links.any fun link =>
        link.target = l.id ∧ link.type = LinkType.directed ∧
          ((latentsOf ns).map g).any fun src => src.id = link.source))) ∘ g) =
      (fun l => decide (¬ (links.any fun link =>
        link.target = l.id ∧ link.type = LinkType.directed ∧
          (latentsOf ns).any fun src => src.id = link.source))) := by
    funext l
    have hinner : ∀ link : Link,
        (((latentsOf ns).map g).any fun src => src.id = link.source) =
          ((latentsOf ns).any fun src => src.id = link.source) :=
      fun link => any_id_map hid (latentsOf ns) link.source
    simp only [Function.comp_apply, hid l, hinner]
  rw [hfun]

lemma endogenousOf_map (hid : ∀ n, (g n).id = n.id)
    (hty : ∀ n, (g n).type = n.type) (ns : List Node) (links : List Link) :
    endogenousOf (ns.map g) links = (endogenousOf ns links).map g := by
  unfold endogenousOf
  rw [latentsOf_map hty, exogenousOf_map hid hty, List.filter_map]
  have hfun : ((fun l => decide (¬ ((exogenousOf ns links).map g).any
        fun ex => ex.id = l.id)) ∘ g) =
      (fun l => decide (¬ (exogenousOf ns links).any
        fun ex => ex.id = l.id)) := by
    funext l
    simp only [Function.comp_apply, hid l,
      any_id_map hid (exogenousOf ns links) l.id]
  rw [hfun]

lemma endoStartY_map (hid : ∀ n, (g n).id = n.id)
    (hty : ∀ n, (g n).type = n.type) (ns : List Node) (links : List Link) :
    endoStartY (ns.map g) links = endoStartY ns links := by
  unfold endoStartY
  rw [exogenousOf_map hid hty, endogenousOf_map hid hty,
    List.length_map, List.length_map]

lemma colAssigns_map (hid : ∀ n, (g n).id = n.id) (x : ℚ) :
    ∀ (L : List Node) (y0 : ℚ),
    colAssigns x (L.map g) y0 = colAssigns x L y0 := by
  intro L
  induction L with
  | nil =>
    intro y0
    rfl
  | cons n rest ih =>
    intro y0
    show ((g n).id, x, y0) :: colAssigns x (rest.map g) (y0 + nodeGap) =
      (n.id, x, y0) :: colAssigns x rest (y0 + nodeGap)
    rw [hid n, ih]

lemma rowAssigns_map (hid : ∀ n, (g n).id = n.id) (y : ℚ) :
    ∀ (L : List Node) (x0 : ℚ),
    rowAssigns y (L.map g) x0 = rowAssigns y L x0 := by
  intro L
  induction L with
  | nil =>
    intro x0
    rfl
  | cons n rest ih =>
    intro x0
    show ((g n).id, x0, y) :: rowAssigns y (rest.map g) (x0 + observedGap) =
      (n.id, x0, y) :: rowAssigns y rest (x0 + observedGap)
    rw [hid n, ih]

lemma abAssigns_map (hid : ∀ n, (g n).id = n.id)
    (hty : ∀ n, (g n).type = n.type) (ns : List Node) (links : List Link) :
    abAssigns (ns.map g) links = abAssigns ns links := by
  unfold abAssigns
  rw [exogenousOf_map hid hty, endogenousOf_map hid hty,
    endoStartY_map hid hty, colAssigns_map hid, colAssigns_map hid]

lemma dedupByIdAux_map (hid : ∀ n, (g n).id = n.id) :
    ∀ (xs : List Node) (seen : List String),
    dedupByIdAux (xs.map g) seen = (dedupByIdAux xs seen).map g := by
  intro xs
  induction xs with
  | nil =>
    intro seen
    rfl
  | cons n rest ih =>
    intro seen
    show (if (g n).id ∈ seen then dedupByIdAux (rest.map g) seen
        else g n :: dedupByIdAux (rest.map g) ((g n).id :: seen)) = _
    rw [hid n, ih, ih]
    show (if n.id ∈ seen then (dedupByIdAux rest seen).map g
        else g n :: (dedupByIdAux rest (n.id :: seen)).map g) =
      (if n.id ∈ seen then dedupByIdAux rest seen
        else n :: dedupByIdAux rest (n.id :: seen)).map g
    split_ifs <;> rfl

lemma dedupById_map (hid : ∀ n, (g n).id = n.id) (xs : List Node) :
    dedupById (xs.map g) = (dedupById xs).map g :=
  dedupByIdAux_map hid xs []

lemma connectedObsOf_map (hid : ∀ n, (g n).id = n.id)
    (links : List Link) (obs : List Node) (i : String) :
    connectedObsOf links (obs.map g) i =
      (connectedObsOf links obs i).map g := by
  unfold connectedObsOf
  have hcond : (fun l : Link => decide
      ((l.source = i ∧ (obs.map g).any fun o => o.id = l.target) ∨
        (l.target = i ∧ (obs.map g).any fun o => o.id = l.source))) =
      (fun l : Link => decide
      ((l.source = i ∧ obs.any fun o => o.id = l.target) ∨
        (l.target = i ∧ obs.any fun o => o.id = l.source))) := by
    funext l
    rw [any_id_map hid obs l.target, any_id_map hid obs l.source]
  rw [hcond]
  have hfm : (links.filter (fun l : Link => decide
      ((l.source = i ∧ obs.any fun o => o.id = l.target) ∨
        (l.target = i ∧ obs.any fun o => o.id = l.source)))).filterMap
      (fun l => (obs.map g).find? fun o =>
        o.id = (if l.source = i then l.target else l.source)) =
      ((links.filter (fun l : Link => decide
      ((l.source = i ∧ obs.any fun o => o.id = l.target) ∨
        (l.target = i ∧ obs.any fun o => o.id = l.source)))).filterMap
      (fun l => obs.find? fun o =>
        o.id = (if l.source = i then l.target else l.source))).map g := by
    rw [List.map_filterMap]
    apply List.filterMap_congr
    intro l _
    rw [find?_id_map hid]
  rw [hfm, dedupById_map hid]

end SkeletonInvariance

lemma obsAssignsOf_map {g : Node → Node} (hid : ∀ n, (g n).id = n.id)
    (hty : ∀ n, (g n).type = n.type) (ns : List Node) (links : List Link)
    (l : Node) :
    obsAssignsOf (ns.map g) links (g l) = obsAssignsOf ns links l := by
  unfold obsAssignsOf
  simp only [abAssigns_map hid hty, hid l, observedOf_map hty,
    connectedObsOf_map hid, List.length_map, rowAssigns_map hid]

lemma layoutAssigns_map {g : Node → Node} (hid : ∀ n, (g n).id = n.id)
    (hty : ∀ n, (g n).type = n.type) (ns : List Node) (links : List Link) :
    layoutAssigns (ns.map g) links = layoutAssigns ns links := by
  unfold layoutAssigns
  rw [latentsOf_map hty, observedOf_map hty, isEmpty_map, isEmpty_map,
    abAssigns_map hid hty, List.foldl_map]
  have hfun : (fun (pr : List Assign) l =>
      pr ++ obsAssignsOf (ns.map g) links (g l)) =
      (fun (pr : List Assign) l => pr ++ obsAssignsOf ns links l) :=
    funext fun pr => funext fun l => by
      rw [obsAssignsOf_map hid hty]
  rw [hfun]

/-- C7: on a graph with unique node ids whose latents are all exogenous
and whose observed nodes are each linked to some latent, auto-layout is
idempotent (the proof in fact never uses the two topology hypotheses:
the characterization through the assignment table gives idempotence for
every graph with unique ids). -/
theorem c7_autoLayout_idempotent (nodes : List Node) (links : List Link)
    (hnodup : (nodes.map Node.id).Nodup)
    (hallexo : ∀ n ∈ nodes, n.type = NodeType.latent →
      ¬ ∃ l ∈ links, l.type = LinkType.directed ∧ l.target = n.id ∧
        ∃ m ∈ nodes, m.type = NodeType.latent ∧ m.id = l.source)
    (hobsconn : ∀ n ∈ nodes, n.type = NodeType.observed →
      ∃ l ∈ links,
        (l.source = n.id ∧
          ∃ m ∈ nodes, m.type = NodeType.latent ∧ m.id = l.target) ∨
        (l.target = n.id ∧
          ∃ m ∈ nodes, m.type = NodeType.latent ∧ m.id = l.source)) :
    autoLayout (autoLayout nodes links) links = autoLayout nodes links := by
  have h1 := autoLayout_eq_applyAssigns nodes links hnodup
  have hids : (applyAssigns (layoutAssigns nodes links) nodes).map Node.id =
      nodes.map Node.id := by
    show (nodes.map (applyToNode (layoutAssigns nodes links))).map Node.id = _
    rw [List.map_map]
    apply List.map_congr_left
    intro n _
    exact applyToNode_id _ n
  have hnodup2 : ((applyAssigns (layoutAssigns nodes links) nodes).map
      Node.id).Nodup := by
    rw [hids]
    exact hnodup
  have h2 := autoLayout_eq_applyAssigns
    (applyAssigns (layoutAssigns nodes links) nodes) links hnodup2
  have h3 : layoutAssigns (applyAssigns (layoutAssigns nodes links) nodes)
      links = layoutAssigns nodes links := by
    show layoutAssigns (nodes.map (applyToNode (layoutAssigns nodes links)))
      links = _
    exact layoutAssigns_map (applyToNode_id _) (applyToNode_type _) nodes links
  rw [h1, h2, h3, applyAssigns_idem]

/-- Nodes of the concrete C7/C9 witness graphs. -/
def c7Nodes : List Node :=
  [⟨"L1", "L1", NodeType.latent, 3, 4⟩, ⟨"O1", "O1", NodeType.observed, 7, 8⟩]

/-- Links of the concrete C7/C9 witness graphs. -/
def c7Links : List Link := [⟨"L1", "O1", LinkType.directed⟩]

/-- Witness for `c7_autoLayout_idempotent` at a concrete graph. -/
theorem c7_witness :
    (c7Nodes.map Node.id).Nodup ∧
    autoLayout (autoLayout c7Nodes c7Links) c7Links =
      autoLayout c7Nodes c7Links :=
  ⟨by decide,
    c7_autoLayout_idempotent c7Nodes c7Links (by decide) (by decide)
      (by decide)⟩

/-- An isolated observed node used by the C9 witness. -/
def isoNode : Node := ⟨"iso", "iso", NodeType.observed, 55, 66⟩

/-- Witness for `c9_layout_frame` at a concrete graph with an isolated
observed node. -/
theorem c9_witness :
    ((c7Nodes ++ [isoNode]).map Node.id).Nodup ∧
    isoNode ∈ autoLayout (c7Nodes ++ [isoNode]) c7Links :=
  ⟨by decide,
    (c9_layout_frame (c7Nodes ++ [isoNode]) c7Links isoNode (by decide)
      (by decide) (by decide) (by decide)).1⟩
